import Mathlib

set_option maxRecDepth 8192

/-!
# Verification of `quarry.types.chunk` (`BlockArray` / `LightArray`)

Shallow embedding of the bit-packed, palette-indirected 4096-cell block array
and the 4-bit light array from `src/quarry/types/chunk.py`.

Modelling conventions:
* Python integers are unbounded, so words are plain `Nat`; the write path
  masks the low word with `2 ** 64 - 1` exactly as the source does.
* Python list subscripts raise `IndexError` when out of range; a raised
  exception is modelled as `none` (reads) or an `Except.error` carrying the
  object state at the moment of the raise, partial mutations included (writes).
* Python `x & ~m` on nonnegative ints clears in `x` every bit set in `m`;
  it is modelled by `andNot x m = x ^^^ (x &&& m)`.
* `int(math.ceil(math.log(n, 2)))` is modelled exactly as the least `k` with
  `n ≤ 2 ^ k` (`ceilLog2`).  The source computes it in floating point, which
  agrees with the exact value for every palette size reachable here
  (the first power of two where CPython's `log(n, 2)` is known to round up
  is `2 ** 29`, far beyond the 4097 palette entries an array can need).
  `math.log(0, 2)` raises `ValueError`, modelled as an error.
* `set(self)` iterates the `Sequence` protocol: indices 0,1,2,… are read until
  the first `IndexError`.  On well-formed arrays this is exactly 0‥4095.  The
  CPython iteration order of the resulting `set` object is implementation
  defined; it is modelled as first-occurrence order, and no theorem below
  depends on the order beyond membership and size.
* The mutual recursion `__setitem__` ↔ `repack` (a write of an id missing from
  the palette repacks, and `repack` restores all 4096 cells through the write
  path) is bounded by an explicit fuel so that every definition is structural
  and kernel-computable.  Fuel is consumed once per step of the restore loop
  and once per nested repack; `FUEL = 8192` can never be exhausted from a
  public entry point (a restore performs 4096 writes and a nested repack
  cannot recurse further on the states the restore produces).
-/

namespace Quarry

/-- The external registry collaborator (`self.block_map` in the source):
translates semantic block descriptors (an opaque type `α`) to integer global
ids and back, and fixes the direct-mode bit width `max_bits`. -/
structure BlockMap (α : Type) where
  max_bits : Nat
  encode_block : α → Nat
  decode_block : Nat → α

/-- `quarry.types.chunk.BlockArray`: the 4096-cell palette-compressed block
array.  `data` is the Python word list, `bits` the per-cell width, `palette`
the optional indirection table (`None` = direct mode). -/
structure BlockArray (α : Type) where
  block_map : BlockMap α
  data : List Nat
  bits : Nat
  palette : Option (List Nat)

/-- Python `list.index(v)`: position of the first occurrence; a raised
`ValueError` (absent value) is modelled as `none`. -/
def pyIndex : List Nat → Nat → Option Nat
  | [], _ => none
  | a :: l, v => if a = v then some 0 else (pyIndex l v).map (· + 1)

/-- Accumulator loop for `pySet`. -/
def pySetGo [DecidableEq α] : List α → List α → List α
  | acc, [] => acc
  | acc, a :: l => if a ∈ acc then pySetGo acc l else pySetGo (acc ++ [a]) l

/-- CPython `set(...)` materialised as a list: deduplication keeping the first
occurrence of each element.  (A CPython set iterates in an implementation
defined order; no result below depends on the order beyond membership and
size.) -/
def pySet [DecidableEq α] (l : List α) : List α := pySetGo [] l

/-- Python `x & ~m` for nonnegative `x` and `m`: drop from `x` every bit set
in `m`.  Stated with kernel-computable operations. -/
def andNot (x m : Nat) : Nat := x ^^^ (x &&& m)

/-- Fuel-driven binary digit count (`bitLenGo f n` is correct for `n ≤ f`). -/
def bitLenGo : Nat → Nat → Nat
  | 0, _ => 0
  | f + 1, n => if n = 0 then 0 else bitLenGo f (n / 2) + 1

/-- Number of binary digits of `n` (`0` for `0`). -/
def bitLen (n : Nat) : Nat := bitLenGo n n

/-- `int(math.ceil(math.log(n, 2)))` for `n ≥ 1`, computed exactly: the least
`k` with `n ≤ 2 ^ k` (see the header note on the source's floating point). -/
def ceilLog2 (n : Nat) : Nat := bitLen (n - 1)

/-- Collect the values of a list of options, failing on the first `none`
(a raised exception propagating out of a list comprehension). -/
def allSome : List (Option α) → Option (List α)
  | [] => some []
  | none :: _ => none
  | some a :: l => (allSome l).map (a :: ·)

/-- Take the longest all-`some` prefix (Python `Sequence` iteration, which
stops at the first `IndexError`). -/
def collectSome : List (Option α) → List α
  | [] => []
  | none :: _ => []
  | some a :: l => a :: collectSome l

/-- `BlockArray.empty(block_map)`: 256 zero words, 4 bits per cell,
palette `[0]`. -/
def BlockArray.empty (block_map : BlockMap α) : BlockArray α :=
  ⟨block_map, List.replicate 256 0, 4, some [0]⟩

/-- `BlockArray.is_empty()`: `palette == [0]` in indirect mode, otherwise
`not any(self.data)`. -/
def BlockArray.is_empty (s : BlockArray α) : Bool :=
  match s.palette with
  | some p => decide (p = [0])
  | none => s.data.all (fun w => decide (w = 0))

/-- Lines 86–97 of `__getitem__`: extract the `bits`-wide unsigned field at
bit offset `bits * n` from the word list and apply the field mask.  `none`
models a raised `IndexError` from a word subscript. -/
def rawGet (data : List Nat) (bits n : Nat) : Option Nat :=
  let idx0 := bits * n / 64
  let idx1 := (bits * (n + 1) - 1) / 64
  let off0 := bits * n % 64
  let off1 := 64 - off0
  let raw : Option Nat :=
    if idx0 = idx1 then
      (data[idx0]?).map (fun w => w >>> off0)
    else
      match data[idx0]?, data[idx1]? with
      | some w0, some w1 => some (w0 >>> off0 ||| w1 <<< off1)
      | _, _ => none
  raw.map (fun v => v &&& ((1 <<< bits) - 1))

/-- `BlockArray.__getitem__` with an int index `n ≥ 0` (the slice branch of
the source maps this over the requested range).  Extracts the `bits`-wide
field at bit offset `bits * n`, resolves it through the palette when present,
and decodes it; `none` models a raised `IndexError` (word list or palette). -/
def getitem (s : BlockArray α) (n : Nat) : Option α :=
  match rawGet s.data s.bits n with
  | none => none
  | some v =>
    match s.palette with
    | some p =>
      match p[v]? with
      | none => none
      | some g => some (s.block_map.decode_block g)
    | none => some (s.block_map.decode_block v)

/-- `set(self)`'s underlying scan: `Sequence` iteration reads indices 0,1,2,…
until the first `IndexError`.  The range bound is generous: on any array with
`bits ≥ 1` the read of index `64 * len(data)` already fails, and on
well-formed arrays the scan is exactly indices 0‥4095. -/
def scanVals (s : BlockArray α) : List α :=
  collectSome ((List.range (64 * s.data.length + 64)).map (fun o => getitem s o))

/-- `self[:]`: the slice branch of `__getitem__`, reading indices 0‥4095 and
propagating any raise. -/
def sliceAll (s : BlockArray α) : Option (List α) :=
  allSome ((List.range 4096).map (fun o => getitem s o))

/-- Lines 122–136 of `__setitem__`: masked read-modify-write of the
`bits`-wide field of cell `n`, `val` being the already-resolved raw field
value.  An `Except.error` is a raised `IndexError`, carrying the state at
raise time (the low word may already have been updated when the high word's
subscript raises). -/
def setRaw (s : BlockArray α) (n : Nat) (val : Nat) :
    Except (BlockArray α) (BlockArray α) :=
  let idx0 := s.bits * n / 64
  let idx1 := (s.bits * (n + 1) - 1) / 64
  let off0 := s.bits * n % 64
  let off1 := 64 - off0
  let mask0 := ((1 <<< s.bits) - 1) <<< off0
  let mask1 := ((1 <<< s.bits) - 1) >>> off1
  match s.data[idx0]? with
  | none => .error s
  | some w0 =>
    let w0 := w0 &&& andNot (2 ^ 64 - 1) mask0
    let w0 := w0 ||| ((2 ^ 64 - 1) &&& mask0 &&& (val <<< off0))
    let s1 : BlockArray α := { s with data := s.data.set idx0 w0 }
    if idx0 = idx1 then .ok s1
    else
      match s1.data[idx1]? with
      | none => .error s1
      | some w1 =>
        let w1 := andNot w1 mask1
        let w1 := w1 ||| (mask1 &&& (val >>> off1))
        .ok { s1 with data := s1.data.set idx1 w1 }

/-- Lines 46–56 of `repack`: the candidate palette and its size.  `none`
models the early `return` when reserving space in an unpaletted array. -/
def repPal [DecidableEq α] (s : BlockArray α) (reserve : Option Nat) :
    Option (List Nat × Nat) :=
  match reserve with
  | none =>
    -- palette = [encode_block(v) for v in set(self)]; palette_len = len(palette)
    let pal := (pySet (scanVals s)).map s.block_map.encode_block
    some (pal, pal.length)
  | some r =>
    match s.palette with
    | none => none  -- reserving space in an unpaletted array is a no-op
    | some p => some (p, p.length + r)

/-- Lines 58–65 of `repack`: the new width, and the palette unless discarded:
`bits = int(ceil(log2(palette_len)))`, raised to 4 when below 4, or — above
8 — forced to the registry width with the palette discarded (direct mode). -/
def repBits (s : BlockArray α) (palette : List Nat) (palette_len : Nat) :
    Nat × Option (List Nat) :=
  let bits0 := ceilLog2 palette_len
  if bits0 ≤ 8 then (if bits0 < 4 then 4 else bits0, some palette)
  else (s.block_map.max_bits, none)

/-- The mutually recursive entry points of the source, closed under one fuel
parameter: `set` is `__setitem__` (int index), `rep` is `repack`, and `res`
is the restore loop `self[:] = values` inside `repack`. -/
inductive Call (α : Type) where
  | set (s : BlockArray α) (n : Nat) (v : α)
  | rep (s : BlockArray α) (reserve : Option Nat)
  | res (s : BlockArray α) (pairs : List (Nat × α))

/-- One interpreter for the `__setitem__` ↔ `repack` recursion; see `Call`.
Structural on the fuel, so concrete runs evaluate in the kernel.  Fuel 0 is
unreachable from the public entry points (`FUEL`). -/
def run [DecidableEq α] : Nat → Call α → Except (BlockArray α) (BlockArray α)
  | 0, .set s _ _ => .error s
  | 0, .rep s _ => .error s
  | 0, .res s _ => .error s
  | fuel + 1, .set s n v =>
    -- val = self.block_map.encode_block(val)
    let val := s.block_map.encode_block v
    match s.palette with
    | none => setRaw s n val
    | some p =>
      match pyIndex p val with
      | some i => setRaw s n i
      | none =>
        -- self.repack(reserve=1)
        match run fuel (.rep s (some 1)) with
        | .error e => .error e
        | .ok s1 =>
          match s1.palette with
          | some p1 =>
            -- self.palette.append(val); val = len(self.palette) - 1
            setRaw { s1 with palette := some (p1 ++ [val]) } n p1.length
          | none => setRaw s1 n val
  | fuel + 1, .rep s reserve =>
    match repPal s reserve with
    | none => .ok s
    | some (palette, palette_len) =>
      if palette_len = 0 then .error s  -- math.log(0, 2) raises ValueError
      else
        let bp := repBits s palette palette_len
        if s.bits = bp.1 then .ok s  -- nothing to do
        else
          match sliceAll s with  -- values = self[:]
          | none => .error s
          | some values =>
            run fuel (.res { s with data := List.replicate (64 * bp.1) 0,
                                    bits := bp.1, palette := bp.2 }
                           ((List.range 4096).zip values))
  | fuel + 1, .res s pairs =>
    match pairs with
    | [] => .ok s
    | (n, v) :: rest =>
      match run fuel (.set s n v) with
      | .error e => .error e
      | .ok s' => run fuel (.res s' rest)

/-- Ample fuel for `run` (see the header note). -/
def FUEL : Nat := 8192

/-- `BlockArray.__setitem__` with an int index `n ≥ 0`. -/
def setitem [DecidableEq α] (s : BlockArray α) (n : Nat) (v : α) :
    Except (BlockArray α) (BlockArray α) :=
  run FUEL (.set s n v)

/-- `BlockArray.repack(reserve)`. -/
def repack [DecidableEq α] (s : BlockArray α) (reserve : Option Nat) :
    Except (BlockArray α) (BlockArray α) :=
  run FUEL (.rep s reserve)

/-- A sequence of writes, stopping at the first raise. -/
def writeSeq [DecidableEq α] (s : BlockArray α) :
    List (Nat × α) → Except (BlockArray α) (BlockArray α)
  | [] => .ok s
  | (n, v) :: rest =>
    match setitem s n v with
    | .error e => .error e
    | .ok s' => writeSeq s' rest

/-- Python list subscript read with a general int index: a negative index
counts from the end; `none` is a raised `IndexError`. -/
def pyGetI (l : List Nat) (i : Int) : Option Nat :=
  let j := if i < 0 then i + l.length else i
  if 0 ≤ j ∧ j < l.length then l[j.toNat]? else none

/-- Python list subscript assignment with a general int index. -/
def pySetI (l : List Nat) (i : Int) (w : Nat) : Option (List Nat) :=
  let j := if i < 0 then i + l.length else i
  if 0 ≤ j ∧ j < l.length then some (l.set j.toNat w) else none

/-- `BlockArray.__getitem__` with a general Python int index: the source does
no bounds check, so the index arithmetic uses Python floor division and the
subscripts wrap negative indices. -/
def getitemI (s : BlockArray α) (n : Int) : Option α :=
  let idx0 := Int.fdiv ((s.bits : Int) * n) 64
  let idx1 := Int.fdiv ((s.bits : Int) * (n + 1) - 1) 64
  let off0 := (Int.fmod ((s.bits : Int) * n) 64).toNat
  let off1 := 64 - off0
  let raw : Option Nat :=
    if idx0 = idx1 then
      (pyGetI s.data idx0).map (fun w => w >>> off0)
    else
      match pyGetI s.data idx0, pyGetI s.data idx1 with
      | some w0, some w1 => some (w0 >>> off0 ||| w1 <<< off1)
      | _, _ => none
  match raw with
  | none => none
  | some v =>
    let v := v &&& ((1 <<< s.bits) - 1)
    match s.palette with
    | some p =>
      match p[v]? with
      | none => none
      | some g => some (s.block_map.decode_block g)
    | none => some (s.block_map.decode_block v)

/-- Lines 122–136 of `__setitem__` with a general Python int index. -/
def setRawI (s : BlockArray α) (n : Int) (val : Nat) :
    Except (BlockArray α) (BlockArray α) :=
  let idx0 := Int.fdiv ((s.bits : Int) * n) 64
  let idx1 := Int.fdiv ((s.bits : Int) * (n + 1) - 1) 64
  let off0 := (Int.fmod ((s.bits : Int) * n) 64).toNat
  let off1 := 64 - off0
  let mask0 := ((1 <<< s.bits) - 1) <<< off0
  let mask1 := ((1 <<< s.bits) - 1) >>> off1
  match pyGetI s.data idx0 with
  | none => .error s
  | some w0 =>
    let w0 := w0 &&& andNot (2 ^ 64 - 1) mask0
    let w0 := w0 ||| ((2 ^ 64 - 1) &&& mask0 &&& (val <<< off0))
    match pySetI s.data idx0 w0 with
    | none => .error s
    | some d1 =>
      let s1 : BlockArray α := { s with data := d1 }
      if idx0 = idx1 then .ok s1
      else
        match pyGetI s1.data idx1 with
        | none => .error s1
        | some w1 =>
          let w1 := andNot w1 mask1
          let w1 := w1 ||| (mask1 &&& (val >>> off1))
          match pySetI s1.data idx1 w1 with
          | none => .error s1
          | some d2 => .ok { s1 with data := d2 }

/-- `BlockArray.__setitem__` with a general Python int index.  The palette
resolution and `repack(reserve=1)` call are index-free, so they reuse `run`. -/
def setitemI [DecidableEq α] (s : BlockArray α) (n : Int) (v : α) :
    Except (BlockArray α) (BlockArray α) :=
  let val := s.block_map.encode_block v
  match s.palette with
  | none => setRawI s n val
  | some p =>
    match pyIndex p val with
    | some i => setRawI s n i
    | none =>
      match run FUEL (.rep s (some 1)) with
      | .error e => .error e
      | .ok s1 =>
        match s1.palette with
        | some p1 => setRawI { s1 with palette := some (p1 ++ [val]) } n p1.length
        | none => setRawI s1 n val

/-- `quarry.types.chunk.LightArray`: 2048 bytes, one 4-bit nibble per cell. -/
structure LightArray where
  data : List Nat

/-- `LightArray.empty()`. -/
def LightArray.empty : LightArray := ⟨List.replicate 2048 0⟩

/-- `LightArray.__getitem__` (int index): `idx, off = divmod(n, 2)`, low
nibble for even cells, high nibble for odd cells. -/
def lightGet (s : LightArray) (n : Int) : Option Nat :=
  let idx := Int.fdiv n 2
  let off := Int.fmod n 2
  match pyGetI s.data idx with
  | none => none
  | some b => if off = 0 then some (b &&& 0x0F) else some (b >>> 4)

/-- `LightArray.__setitem__`: read-modify-write of one byte, preserving the
other nibble.  The source performs no range check on `val`. -/
def lightSet (s : LightArray) (n : Int) (val : Nat) : Option LightArray :=
  let idx := Int.fdiv n 2
  let off := Int.fmod n 2
  match pyGetI s.data idx with
  | none => none
  | some b =>
    let b' := if off = 0 then (b &&& 0xF0) ||| val else (b &&& 0x0F) ||| (val <<< 4)
    (pySetI s.data idx b').map (fun d => ⟨d⟩)

/-! ## Proof-layer abstractions

The packed word list viewed as one big natural number, the per-cell raw field
and global id it induces, the well-formedness invariant of reachable arrays,
and the reachability relation itself. -/

/-- The word list as a single natural number, little-endian, 64 bits per
word. -/
def wordsVal : List Nat → Nat
  | [] => 0
  | w :: ws => w % 2 ^ 64 + 2 ^ 64 * wordsVal ws

/-- Clear the `b`-bit field at bit offset `off` of `N` and store `v` there
(modulo `2 ^ b`). -/
def putBits (N off b v : Nat) : Nat :=
  andNot N (((1 <<< b) - 1) <<< off) ||| ((v &&& ((1 <<< b) - 1)) <<< off)

/-- The raw (pre-palette) value of cell `n`: the `bits`-wide field at bit
offset `bits * n`. -/
def cellRaw (s : BlockArray α) (n : Nat) : Nat :=
  (wordsVal s.data >>> (s.bits * n)) % 2 ^ s.bits

/-- The global id of cell `n`: the raw field, resolved through the palette
when present. -/
def cellId (s : BlockArray α) (n : Nat) : Nat :=
  match s.palette with
  | some p => p.getD (cellRaw s n) 0
  | none => cellRaw s n

/-- A global id the registry round-trips and that fits in the direct width. -/
def RT (bm : BlockMap α) (g : Nat) : Prop :=
  bm.encode_block (bm.decode_block g) = g ∧ g < 2 ^ bm.max_bits

/-- Well-formedness invariant of a `BlockArray`, established below for every
state reachable from `BlockArray.empty`. -/
structure WF (s : BlockArray α) : Prop where
  hlen : s.data.length = 64 * s.bits
  hwords : ∀ w ∈ s.data, w < 2 ^ 64
  hb1 : 1 ≤ s.bits
  hb64 : s.bits ≤ 64
  hpal : ∀ p, s.palette = some p →
    (∀ g ∈ p, RT s.block_map g) ∧ p.length ≤ 2 ^ s.bits ∧ s.bits ≤ 8 ∧
      ∀ n, n < 4096 → cellRaw s n < p.length
  hdir : s.palette = none → s.bits = s.block_map.max_bits ∧
    ∀ n, n < 4096 → RT s.block_map (cellRaw s n)

/-- Assumptions on the external registry, the collaborator contract of the
spec: `decode` inverts `encode`, every id fits in the direct width, id 0 (the
initial fill) round-trips, and the direct width is a machine-word width
strictly wider than the 8-bit palette-index cap (as in the source's Minecraft
registries, where it is at least 14). -/
structure GoodMap (bm : BlockMap α) : Prop where
  rt : ∀ d, bm.decode_block (bm.encode_block d) = d
  bound : ∀ d, bm.encode_block d < 2 ^ bm.max_bits
  zero : bm.encode_block (bm.decode_block 0) = 0
  gt8 : 8 < bm.max_bits
  le64 : bm.max_bits ≤ 64

/-- States reachable from the empty array by in-range writes and repacks
(reads do not mutate). -/
inductive Reachable [DecidableEq α] (bm : BlockMap α) : BlockArray α → Prop where
  | empty : Reachable bm (BlockArray.empty bm)
  | write {s s' : BlockArray α} {n : Nat} {v : α} : Reachable bm s →
      n < 4096 → setitem s n v = .ok s' → Reachable bm s'
  | rep {s s' : BlockArray α} {r : Option Nat} : Reachable bm s →
      repack s r = .ok s' → Reachable bm s'

/-- A concrete registry for witnesses and counterexamples: descriptors are the
ids themselves, capped at the 16-bit direct width. -/
def natMap : BlockMap (Fin 65536) :=
  ⟨16, Fin.val, fun g => ⟨g % 65536, Nat.mod_lt g (by omega)⟩⟩

/-- The empty array over the concrete registry. -/
def e0 : BlockArray (Fin 65536) := BlockArray.empty natMap

/-- The error state of a failed operation, when it failed. -/
def errSt : Except (BlockArray α) (BlockArray α) → Option (BlockArray α)
  | .error s => some s
  | .ok _ => none

/-- The result state of a successful operation, when it succeeded. -/
def okSt : Except (BlockArray α) (BlockArray α) → Option (BlockArray α)
  | .ok s => some s
  | .error _ => none

/-! ## Bit-level lemmas -/

theorem testBit_andNot (x m i : Nat) :
    (andNot x m).testBit i = (x.testBit i && !(m.testBit i)) := by
  simp only [andNot, Nat.testBit_xor, Nat.testBit_and]
  cases x.testBit i <;> cases m.testBit i <;> rfl

theorem mask_eq (b : Nat) : (1 <<< b) - 1 = 2 ^ b - 1 := by
  rw [Nat.one_shiftLeft]

theorem testBit_mask (b i : Nat) : ((1 <<< b) - 1).testBit i = decide (i < b) := by
  rw [mask_eq, Nat.testBit_two_pow_sub_one]

theorem and_mask_eq_mod (x b : Nat) : x &&& ((1 <<< b) - 1) = x % 2 ^ b := by
  rw [mask_eq, Nat.and_pow_two_sub_one_eq_mod]

theorem testBit_putBits (N off b v i : Nat) :
    (putBits N off b v).testBit i =
      if off ≤ i ∧ i < off + b then v.testBit (i - off) else N.testBit i := by
  simp only [putBits, Nat.testBit_or, testBit_andNot, Nat.testBit_shiftLeft,
    Nat.testBit_and, testBit_mask, ge_iff_le]
  by_cases h1 : off ≤ i
  · by_cases h2 : i < off + b
    · have h3 : i - off < b := by omega
      simp [h1, h2, h3]
    · have h3 : ¬(i - off < b) := by omega
      simp [h1, h2, h3]
  · simp [h1]

theorem putBits_get_same (N off b v : Nat) :
    (putBits N off b v >>> off) % 2 ^ b = v % 2 ^ b := by
  apply Nat.eq_of_testBit_eq
  intro i
  simp only [Nat.testBit_mod_two_pow, Nat.testBit_shiftRight, testBit_putBits]
  by_cases h : i < b
  · have h1 : off ≤ off + i ∧ off + i < off + b := by omega
    simp [h, h1]
  · simp [h]

theorem putBits_get_other (N off b v off' b' : Nat)
    (h : off' + b' ≤ off ∨ off + b ≤ off') :
    (putBits N off b v >>> off') % 2 ^ b' = (N >>> off') % 2 ^ b' := by
  apply Nat.eq_of_testBit_eq
  intro i
  simp only [Nat.testBit_mod_two_pow, Nat.testBit_shiftRight, testBit_putBits]
  by_cases hi : i < b'
  · have h1 : ¬(off ≤ off' + i ∧ off' + i < off + b) := by omega
    simp [hi, h1]
  · simp [hi]

theorem testBit_wordsVal (ws : List Nat) (j : Nat) :
    (wordsVal ws).testBit j = ((ws.getD (j / 64) 0) % 2 ^ 64).testBit (j % 64) := by
  induction ws generalizing j with
  | nil => simp [wordsVal]
  | cons w ws ih =>
    show (w % 2 ^ 64 + 2 ^ 64 * wordsVal ws).testBit j = _
    rw [Nat.add_comm, Nat.testBit_mul_pow_two_add _ (Nat.mod_lt _ (Nat.two_pow_pos 64)) j]
    by_cases h : j < 64
    · rw [if_pos h, Nat.div_eq_of_lt h, Nat.mod_eq_of_lt h, List.getD_cons_zero]
    · rw [if_neg (by omega), ih (j - 64)]
      have h1 : j / 64 = (j - 64) / 64 + 1 := by omega
      have h2 : j % 64 = (j - 64) % 64 := by omega
      rw [h1, h2, List.getD_cons_succ]

theorem wordsVal_replicate_zero (k : Nat) : wordsVal (List.replicate k 0) = 0 := by
  induction k with
  | zero => rfl
  | succ k ih =>
    show wordsVal (0 :: List.replicate k 0) = 0
    simp [wordsVal, ih]

theorem testBit_wordsVal_set (ws : List Nat) (k w j : Nat) (hk : k < ws.length) :
    (wordsVal (ws.set k w)).testBit j =
      if j / 64 = k then (w % 2 ^ 64).testBit (j % 64)
      else (wordsVal ws).testBit j := by
  rw [testBit_wordsVal, testBit_wordsVal]
  by_cases h : j / 64 = k
  · subst h
    rw [if_pos rfl]
    have hg : (ws.set (j / 64) w).getD (j / 64) 0 = w := by
      simp [List.getD_eq_getElem?_getD, List.getElem?_set_self hk]
    rw [hg]
  · rw [if_neg h]
    have hg : (ws.set k w).getD (j / 64) 0 = ws.getD (j / 64) 0 := by
      simp [List.getD_eq_getElem?_getD,
        List.getElem?_set_ne (fun hh : k = j / 64 => h hh.symm)]
    rw [hg]

/-! ## The raw field read and write against `wordsVal` -/

theorem rawGet_eq (data : List Nat) (bits n : Nat)
    (hw : ∀ w ∈ data, w < 2 ^ 64) (hb1 : 1 ≤ bits) (hb64 : bits ≤ 64)
    (hidx : (bits * (n + 1) - 1) / 64 < data.length) :
    rawGet data bits n = some ((wordsVal data >>> (bits * n)) % 2 ^ bits) := by
  have hbn : bits * (n + 1) = bits * n + bits := by ring
  rw [hbn] at hidx
  have hoff : bits * n % 64 < 64 := Nat.mod_lt _ (by omega)
  have hidx0le : bits * n / 64 ≤ (bits * n + bits - 1) / 64 :=
    Nat.div_le_div_right (by omega)
  have hidx0 : bits * n / 64 < data.length := lt_of_le_of_lt hidx0le hidx
  obtain ⟨w0, hw0⟩ : ∃ w, data[bits * n / 64]? = some w :=
    ⟨_, List.getElem?_eq_getElem hidx0⟩
  have hw0v : data.getD (bits * n / 64) 0 = w0 := by simp [hw0]
  have hw0lt : w0 < 2 ^ 64 := hw _ (List.getElem?_mem hw0)
  by_cases hcase : bits * n % 64 + bits ≤ 64
  · have hcond : bits * n / 64 = (bits * n + bits - 1) / 64 := by omega
    simp only [rawGet, hbn, if_pos hcond, hw0, Option.map_some']
    congr 1
    rw [and_mask_eq_mod]
    apply Nat.eq_of_testBit_eq
    intro i
    simp only [Nat.testBit_mod_two_pow, Nat.testBit_shiftRight, testBit_wordsVal]
    by_cases hi : i < bits
    · have e1 : (bits * n + i) / 64 = bits * n / 64 := by omega
      have e2 : (bits * n + i) % 64 = bits * n % 64 + i := by omega
      have e4 : bits * n % 64 + i < 64 := by omega
      rw [e1, e2, hw0v]
      simp [hi, e4]
    · simp [hi]
  · have hne : (bits * n + bits - 1) / 64 = bits * n / 64 + 1 := by omega
    have hidx1lt : bits * n / 64 + 1 < data.length := by rw [← hne]; exact hidx
    obtain ⟨w1, hw1⟩ : ∃ w, data[bits * n / 64 + 1]? = some w :=
      ⟨_, List.getElem?_eq_getElem hidx1lt⟩
    have hw1v : data.getD (bits * n / 64 + 1) 0 = w1 := by simp [hw1]
    have hw1lt : w1 < 2 ^ 64 := hw _ (List.getElem?_mem hw1)
    have hcond : ¬ (bits * n / 64 = bits * n / 64 + 1) := by omega
    simp only [rawGet, hbn, hne, if_neg hcond, hw0, hw1, Option.map_some']
    congr 1
    rw [and_mask_eq_mod]
    apply Nat.eq_of_testBit_eq
    intro i
    simp only [Nat.testBit_mod_two_pow, Nat.testBit_shiftRight, Nat.testBit_or,
      Nat.testBit_shiftLeft, testBit_wordsVal, ge_iff_le]
    by_cases hi : i < bits
    · by_cases hsplit : bits * n % 64 + i < 64
      · have e1 : (bits * n + i) / 64 = bits * n / 64 := by omega
        have e2 : (bits * n + i) % 64 = bits * n % 64 + i := by omega
        have hw1bit : ¬ (64 - bits * n % 64 ≤ i) := by omega
        rw [e1, e2, hw0v]
        simp [hi, hw1bit, hsplit]
      · have e1 : (bits * n + i) / 64 = bits * n / 64 + 1 := by omega
        have e2 : (bits * n + i) % 64 = bits * n % 64 + i - 64 := by omega
        have h0 : w0.testBit (bits * n % 64 + i) = false :=
          Nat.testBit_lt_two_pow
            (lt_of_lt_of_le hw0lt (Nat.pow_le_pow_right (by omega) (by omega)))
        have hge : 64 - bits * n % 64 ≤ i := by omega
        have e3 : i - (64 - bits * n % 64) = bits * n % 64 + i - 64 := by omega
        have e4 : bits * n % 64 + i - 64 < 64 := by omega
        rw [e1, e2, hw1v, h0, e3]
        simp [hi, hge, e4]
    · simp [hi]

theorem testBit_word0 (bits off0 w0 val r : Nat) :
    (w0 &&& andNot (2 ^ 64 - 1) (((1 <<< bits) - 1) <<< off0) |||
      (2 ^ 64 - 1) &&& (((1 <<< bits) - 1) <<< off0) &&& (val <<< off0)).testBit r =
    if r < 64 then
      (if off0 ≤ r ∧ r - off0 < bits then val.testBit (r - off0) else w0.testBit r)
    else false := by
  simp only [Nat.testBit_or, Nat.testBit_and, testBit_andNot, Nat.testBit_shiftLeft,
    testBit_mask, Nat.testBit_two_pow_sub_one, ge_iff_le]
  by_cases hr : r < 64
  · by_cases h1 : off0 ≤ r
    · by_cases h2 : r - off0 < bits
      · simp [hr, h1, h2]
      · simp [hr, h1, h2]
    · simp [hr, h1]
  · simp [hr]

theorem testBit_word1 (bits off1 w1 val r : Nat) :
    (andNot w1 (((1 <<< bits) - 1) >>> off1) |||
      ((1 <<< bits) - 1) >>> off1 &&& (val >>> off1)).testBit r =
    if off1 + r < bits then val.testBit (off1 + r) else w1.testBit r := by
  simp only [Nat.testBit_or, Nat.testBit_and, testBit_andNot, Nat.testBit_shiftRight,
    testBit_mask]
  by_cases h : off1 + r < bits
  · simp [h]
  · simp [h]

theorem setRaw_spec (s : BlockArray α) (n val : Nat)
    (hw : ∀ w ∈ s.data, w < 2 ^ 64) (hb1 : 1 ≤ s.bits) (hb64 : s.bits ≤ 64)
    (hidx : (s.bits * (n + 1) - 1) / 64 < s.data.length) :
    ∃ d', setRaw s n val = .ok { s with data := d' } ∧
      d'.length = s.data.length ∧ (∀ w ∈ d', w < 2 ^ 64) ∧
      wordsVal d' = putBits (wordsVal s.data) (s.bits * n) s.bits val := by
  have hbn : s.bits * (n + 1) = s.bits * n + s.bits := by ring
  rw [hbn] at hidx
  have hoff : s.bits * n % 64 < 64 := Nat.mod_lt _ (by omega)
  have hidx0le : s.bits * n / 64 ≤ (s.bits * n + s.bits - 1) / 64 :=
    Nat.div_le_div_right (by omega)
  have hidx0 : s.bits * n / 64 < s.data.length := lt_of_le_of_lt hidx0le hidx
  obtain ⟨w0, hw0⟩ : ∃ w, s.data[s.bits * n / 64]? = some w :=
    ⟨_, List.getElem?_eq_getElem hidx0⟩
  have hw0v : s.data.getD (s.bits * n / 64) 0 = w0 := by simp [hw0]
  have hw0lt : w0 < 2 ^ 64 := hw _ (List.getElem?_mem hw0)
  have hanlt : ∀ x m : Nat, x < 2 ^ 64 → x &&& andNot (2 ^ 64 - 1) m < 2 ^ 64 :=
    fun x m hx => Nat.and_lt_two_pow _
      (Nat.xor_lt_two_pow (by omega) (Nat.lt_of_le_of_lt Nat.and_le_left (by omega)))
  have hw0'lt : w0 &&& andNot (2 ^ 64 - 1) (((1 <<< s.bits) - 1) <<< (s.bits * n % 64)) |||
      (2 ^ 64 - 1) &&& (((1 <<< s.bits) - 1) <<< (s.bits * n % 64)) &&&
        (val <<< (s.bits * n % 64)) < 2 ^ 64 :=
    Nat.or_lt_two_pow (hanlt _ _ hw0lt)
      (Nat.lt_of_le_of_lt (Nat.le_trans Nat.and_le_left Nat.and_le_left) (by omega))
  by_cases hcase : s.bits * n % 64 + s.bits ≤ 64
  · -- the field lies in one word
    have hcond : s.bits * n / 64 = (s.bits * n + s.bits - 1) / 64 := by omega
    refine ⟨s.data.set (s.bits * n / 64)
      (w0 &&& andNot (2 ^ 64 - 1) (((1 <<< s.bits) - 1) <<< (s.bits * n % 64)) |||
        (2 ^ 64 - 1) &&& (((1 <<< s.bits) - 1) <<< (s.bits * n % 64)) &&&
          (val <<< (s.bits * n % 64))), ?_, ?_, ?_, ?_⟩
    · simp only [setRaw, hbn, if_pos hcond, hw0]
    · simp
    · intro w hmem
      rcases List.mem_or_eq_of_mem_set hmem with h | h
      · exact hw _ h
      · exact h ▸ hw0'lt
    · apply Nat.eq_of_testBit_eq
      intro j
      rw [testBit_wordsVal_set _ _ _ _ hidx0, testBit_putBits]
      by_cases hj : j / 64 = s.bits * n / 64
      · rw [if_pos hj]
        simp only [Nat.testBit_mod_two_pow]
        rw [testBit_word0]
        have hr : j % 64 < 64 := Nat.mod_lt _ (by omega)
        rw [if_pos hr]
        by_cases hin : s.bits * n ≤ j ∧ j < s.bits * n + s.bits
        · have h1 : s.bits * n % 64 ≤ j % 64 ∧ j % 64 - s.bits * n % 64 < s.bits := by omega
          have h2 : j % 64 - s.bits * n % 64 = j - s.bits * n := by omega
          rw [if_pos h1, if_pos hin, h2]
          simp [hr]
        · have h1 : ¬ (s.bits * n % 64 ≤ j % 64 ∧ j % 64 - s.bits * n % 64 < s.bits) := by
            omega
          rw [if_neg h1, if_neg hin, testBit_wordsVal]
          have : j / 64 = s.bits * n / 64 := hj
          rw [this, hw0v, Nat.mod_eq_of_lt hw0lt]
          simp [hr]
      · rw [if_neg hj]
        have hout : ¬ (s.bits * n ≤ j ∧ j < s.bits * n + s.bits) := by omega
        rw [if_neg hout]
  · -- the field spans two adjacent words
    have hne : (s.bits * n + s.bits - 1) / 64 = s.bits * n / 64 + 1 := by omega
    have hidx1lt : s.bits * n / 64 + 1 < s.data.length := by rw [← hne]; exact hidx
    obtain ⟨w1, hw1⟩ : ∃ w, s.data[s.bits * n / 64 + 1]? = some w :=
      ⟨_, List.getElem?_eq_getElem hidx1lt⟩
    have hw1v : s.data.getD (s.bits * n / 64 + 1) 0 = w1 := by simp [hw1]
    have hw1lt : w1 < 2 ^ 64 := hw _ (List.getElem?_mem hw1)
    have hcond : ¬ (s.bits * n / 64 = s.bits * n / 64 + 1) := by omega
    have hget1 : (s.data.set (s.bits * n / 64)
        (w0 &&& andNot (2 ^ 64 - 1) (((1 <<< s.bits) - 1) <<< (s.bits * n % 64)) |||
          (2 ^ 64 - 1) &&& (((1 <<< s.bits) - 1) <<< (s.bits * n % 64)) &&&
            (val <<< (s.bits * n % 64))))[s.bits * n / 64 + 1]? = some w1 := by
      rw [List.getElem?_set_ne hcond]
      exact hw1
    have hmask1lt : ((1 <<< s.bits) - 1) >>> (64 - s.bits * n % 64) < 2 ^ 64 := by
      rw [mask_eq, Nat.shiftRight_eq_div_pow]
      have h2 : 2 ^ s.bits ≤ 2 ^ 64 := Nat.pow_le_pow_right (by omega) hb64
      have h3 : (2 ^ s.bits - 1) / 2 ^ (64 - s.bits * n % 64) ≤ 2 ^ s.bits - 1 :=
        Nat.div_le_self _ _
      omega
    have hw1'lt : andNot w1 (((1 <<< s.bits) - 1) >>> (64 - s.bits * n % 64)) |||
        ((1 <<< s.bits) - 1) >>> (64 - s.bits * n % 64) &&&
          (val >>> (64 - s.bits * n % 64)) < 2 ^ 64 := by
      apply Nat.or_lt_two_pow
      · exact Nat.xor_lt_two_pow hw1lt (Nat.lt_of_le_of_lt Nat.and_le_left hw1lt)
      · exact Nat.lt_of_le_of_lt Nat.and_le_left hmask1lt
    refine ⟨(s.data.set (s.bits * n / 64)
      (w0 &&& andNot (2 ^ 64 - 1) (((1 <<< s.bits) - 1) <<< (s.bits * n % 64)) |||
        (2 ^ 64 - 1) &&& (((1 <<< s.bits) - 1) <<< (s.bits * n % 64)) &&&
          (val <<< (s.bits * n % 64)))).set (s.bits * n / 64 + 1)
      (andNot w1 (((1 <<< s.bits) - 1) >>> (64 - s.bits * n % 64)) |||
        ((1 <<< s.bits) - 1) >>> (64 - s.bits * n % 64) &&&
          (val >>> (64 - s.bits * n % 64))), ?_, ?_, ?_, ?_⟩
    · simp only [setRaw, hbn, hne, if_neg hcond, hw0, hget1]
    · simp
    · intro w hmem
      rcases List.mem_or_eq_of_mem_set hmem with h | h
      · rcases List.mem_or_eq_of_mem_set h with h2 | h2
        · exact hw _ h2
        · exact h2 ▸ hw0'lt
      · exact h ▸ hw1'lt
    · apply Nat.eq_of_testBit_eq
      intro j
      rw [testBit_wordsVal_set _ _ _ _ (by simpa using hidx1lt),
        testBit_wordsVal_set _ _ _ _ hidx0, testBit_putBits]
      have hr : j % 64 < 64 := Nat.mod_lt _ (by omega)
      by_cases hj1 : j / 64 = s.bits * n / 64 + 1
      · rw [if_pos hj1]
        simp only [Nat.testBit_mod_two_pow]
        rw [testBit_word1]
        by_cases hin : 64 - s.bits * n % 64 + j % 64 < s.bits
        · have h1 : s.bits * n ≤ j ∧ j < s.bits * n + s.bits := by omega
          have h2 : 64 - s.bits * n % 64 + j % 64 = j - s.bits * n := by omega
          rw [if_pos hin, if_pos h1, h2]
          simp [hr]
        · have h1 : ¬ (s.bits * n ≤ j ∧ j < s.bits * n + s.bits) := by omega
          rw [if_neg hin, if_neg h1, testBit_wordsVal, hj1, hw1v,
            Nat.mod_eq_of_lt hw1lt]
          simp [hr]
      · rw [if_neg hj1]
        by_cases hj0 : j / 64 = s.bits * n / 64
        · rw [if_pos hj0]
          simp only [Nat.testBit_mod_two_pow]
          rw [testBit_word0, if_pos hr]
          by_cases hin : s.bits * n % 64 ≤ j % 64
          · have h1 : s.bits * n ≤ j ∧ j < s.bits * n + s.bits := by omega
            have h2 : j % 64 - s.bits * n % 64 < s.bits := by omega
            have h3 : j % 64 - s.bits * n % 64 = j - s.bits * n := by omega
            rw [if_pos ⟨hin, h2⟩, if_pos h1, h3]
            simp [hr]
          · have h1 : ¬ (s.bits * n ≤ j ∧ j < s.bits * n + s.bits) := by omega
            have h2 : ¬ (s.bits * n % 64 ≤ j % 64 ∧ j % 64 - s.bits * n % 64 < s.bits) := by
              omega
            rw [if_neg h2, if_neg h1, testBit_wordsVal, hj0, hw0v,
              Nat.mod_eq_of_lt hw0lt]
            simp [hr]
        · have hout : ¬ (s.bits * n ≤ j ∧ j < s.bits * n + s.bits) := by omega
          rw [if_neg hj0, if_neg hout]

/-! ## Cell-level consequences -/

theorem idx_lt (s : BlockArray α) (n : Nat) (hb1 : 1 ≤ s.bits)
    (hlen : s.data.length = 64 * s.bits) (hn : n < 4096) :
    (s.bits * (n + 1) - 1) / 64 < s.data.length := by
  rw [hlen]
  have h1 : s.bits * (n + 1) ≤ s.bits * 4096 := Nat.mul_le_mul_left _ (by omega)
  have h2 : s.bits * 4096 = 64 * (64 * s.bits) := by ring
  omega

theorem idx_oob (s : BlockArray α) (n : Nat) (hlen : s.data.length = 64 * s.bits)
    (hn : 4096 ≤ n) : s.data[s.bits * n / 64]? = none := by
  apply List.getElem?_eq_none
  rw [hlen]
  have h1 : s.bits * 4096 ≤ s.bits * n := Nat.mul_le_mul_left _ hn
  have h2 : s.bits * 4096 = 64 * (64 * s.bits) := by ring
  omega

theorem setRaw_cells (s : BlockArray α) (n val : Nat)
    (hw : ∀ w ∈ s.data, w < 2 ^ 64) (hb1 : 1 ≤ s.bits) (hb64 : s.bits ≤ 64)
    (hlen : s.data.length = 64 * s.bits) (hn : n < 4096) :
    ∃ d', setRaw s n val = .ok { s with data := d' } ∧
      d'.length = s.data.length ∧ (∀ w ∈ d', w < 2 ^ 64) ∧
      ∀ m, cellRaw { s with data := d' } m =
        if m = n then val % 2 ^ s.bits else cellRaw s m := by
  obtain ⟨d', hok, hl, hw', hval⟩ :=
    setRaw_spec s n val hw hb1 hb64 (idx_lt s n hb1 hlen hn)
  refine ⟨d', hok, hl, hw', fun m => ?_⟩
  show (wordsVal d' >>> (s.bits * m)) % 2 ^ s.bits = _
  rw [hval]
  by_cases hm : m = n
  · subst hm
    rw [if_pos rfl, putBits_get_same]
  · rw [if_neg hm]
    apply putBits_get_other
    rcases Nat.lt_or_ge m n with h | h
    · left
      have h1 : s.bits * (m + 1) ≤ s.bits * n := Nat.mul_le_mul_left _ (by omega)
      have h2 : s.bits * (m + 1) = s.bits * m + s.bits := by ring
      omega
    · right
      have h1 : s.bits * (n + 1) ≤ s.bits * m := Nat.mul_le_mul_left _ (by omega)
      have h2 : s.bits * (n + 1) = s.bits * n + s.bits := by ring
      omega

theorem setRaw_oob (s : BlockArray α) (n val : Nat)
    (hlen : s.data.length = 64 * s.bits) (hn : 4096 ≤ n) :
    setRaw s n val = .error s := by
  simp only [setRaw, idx_oob s n hlen hn]

theorem rawGet_cellRaw (s : BlockArray α) (n : Nat) (hWF : WF s) (hn : n < 4096) :
    rawGet s.data s.bits n = some (cellRaw s n) :=
  rawGet_eq s.data s.bits n hWF.hwords hWF.hb1 hWF.hb64 (idx_lt s n hWF.hb1 hWF.hlen hn)

theorem getitem_eq (s : BlockArray α) (n : Nat) (hWF : WF s) (hn : n < 4096) :
    getitem s n = some (s.block_map.decode_block (cellId s n)) := by
  have hraw := rawGet_cellRaw s n hWF hn
  cases hp : s.palette with
  | some p =>
    have h3 := (hWF.hpal p hp).2.2.2 n hn
    have hg : p[cellRaw s n]? = some (p.getD (cellRaw s n) 0) := by
      rw [List.getD_eq_getElem?_getD, List.getElem?_eq_getElem h3]
      rfl
    simp only [getitem, hraw, hp, hg, cellId]
  | none => simp only [getitem, hraw, hp, cellId]

theorem getitem_oob (s : BlockArray α) (n : Nat)
    (hlen : s.data.length = 64 * s.bits) (hn : 4096 ≤ n) :
    getitem s n = none := by
  have hnone := idx_oob s n hlen hn
  rw [getitem, rawGet]
  by_cases h : s.bits * n / 64 = (s.bits * (n + 1) - 1) / 64
  · rw [if_pos h, hnone]
    rfl
  · rw [if_neg h, hnone]
    cases s.data[(s.bits * (n + 1) - 1) / 64]? <;> rfl

/-! ## Scan and slice under the invariant -/

theorem allSome_map_some (f : Nat → Option α) (g : Nat → α) (idx : List Nat)
    (h : ∀ i ∈ idx, f i = some (g i)) :
    allSome (idx.map f) = some (idx.map g) := by
  induction idx with
  | nil => rfl
  | cons a l ih =>
    have ha := h a (by simp)
    have hl := ih (fun i hi => h i (by simp [hi]))
    simp [allSome, ha, hl]

theorem collectSome_prefix (l1 : List α) (l2 : List (Option α)) :
    collectSome (l1.map some ++ none :: l2) = l1 := by
  induction l1 with
  | nil => rfl
  | cons a l ih => rw [List.map_cons, List.cons_append, collectSome, ih]

theorem sliceAll_eq (s : BlockArray α) (hWF : WF s) :
    sliceAll s =
      some ((List.range 4096).map (fun n => s.block_map.decode_block (cellId s n))) := by
  apply allSome_map_some
  intro i hi
  exact getitem_eq s i hWF (by simpa using hi)

theorem scanVals_eq (s : BlockArray α) (hWF : WF s) :
    scanVals s = (List.range 4096).map (fun n => s.block_map.decode_block (cellId s n)) := by
  have hsplit : List.range (64 * s.data.length + 64) =
      List.range' 0 4096 ++ List.range' 4096 (64 * s.data.length + 64 - 4096) := by
    rw [List.range'_append_1, List.range_eq_range']
    congr 1
    have := hWF.hlen
    have := hWF.hb1
    omega
  rw [scanVals, hsplit, List.map_append]
  have hr : List.range' 4096 (64 * s.data.length + 64 - 4096) =
      4096 :: List.range' 4097 (64 * s.data.length + 64 - 4097) := by
    have h1 : 64 * s.data.length + 64 - 4096 = (64 * s.data.length + 64 - 4097) + 1 := by
      have := hWF.hlen
      have := hWF.hb1
      omega
    rw [h1, List.range'_succ]
  rw [hr, List.map_cons, getitem_oob s 4096 hWF.hlen (by omega)]
  have hmap : (List.range' 0 4096).map (getitem s) =
      ((List.range' 0 4096).map (fun n => s.block_map.decode_block (cellId s n))).map some := by
    rw [List.map_map]
    apply List.map_congr_left
    intro i hi
    have hi4096 : i < 4096 := by
      have := List.mem_range'_1.mp hi
      omega
    exact getitem_eq s i hWF hi4096
  rw [hmap, collectSome_prefix, List.range_eq_range']

/-! ## `list.index` and `set()` -/

theorem pyIndex_eq_none (l : List Nat) (v : Nat) : pyIndex l v = none ↔ v ∉ l := by
  induction l with
  | nil => simp [pyIndex]
  | cons a l ih =>
    by_cases h : a = v
    · subst h
      simp [pyIndex]
    · rw [pyIndex, if_neg h, Option.map_eq_none', ih]
      constructor
      · intro h1 hmem
        rcases List.mem_cons.mp hmem with h2 | h2
        · exact h h2.symm
        · exact h1 h2
      · intro h1 h2
        exact h1 (List.mem_cons_of_mem a h2)

theorem pyIndex_some (l : List Nat) (v i : Nat) (h : pyIndex l v = some i) :
    i < l.length ∧ l.getD i 0 = v := by
  induction l generalizing i with
  | nil => simp [pyIndex] at h
  | cons a l ih =>
    by_cases ha : a = v
    · subst ha
      simp [pyIndex] at h
      subst h
      simp
    · rw [pyIndex, if_neg ha] at h
      rcases Option.map_eq_some'.mp h with ⟨j, hj, hji⟩
      subst hji
      obtain ⟨h1, h2⟩ := ih j hj
      exact ⟨by simpa using h1, by simpa using h2⟩

theorem pyIndex_mem (l : List Nat) (v : Nat) (h : v ∈ l) :
    ∃ i, pyIndex l v = some i ∧ i < l.length ∧ l.getD i 0 = v := by
  cases hi : pyIndex l v with
  | none => exact absurd ((pyIndex_eq_none l v).mp hi) (by simpa using h)
  | some i =>
    obtain ⟨h1, h2⟩ := pyIndex_some l v i hi
    exact ⟨i, rfl, h1, h2⟩

theorem mem_pySetGo [DecidableEq α] (l acc : List α) (x : α) :
    x ∈ pySetGo acc l ↔ x ∈ acc ∨ x ∈ l := by
  induction l generalizing acc with
  | nil => simp [pySetGo]
  | cons a l ih =>
    rw [pySetGo]
    by_cases h : a ∈ acc
    · rw [if_pos h, ih]
      constructor
      · rintro (h1 | h1)
        · exact Or.inl h1
        · exact Or.inr (by simp [h1])
      · rintro (h1 | h1)
        · exact Or.inl h1
        · rcases List.mem_cons.mp h1 with h2 | h2
          · exact Or.inl (h2 ▸ h)
          · exact Or.inr h2
    · rw [if_neg h, ih]
      simp only [List.mem_append, List.mem_cons, List.mem_singleton]
      tauto

theorem mem_pySet [DecidableEq α] (l : List α) (x : α) : x ∈ pySet l ↔ x ∈ l := by
  rw [pySet, mem_pySetGo]
  simp

/-! ## `ceilLog2` -/

theorem bitLenGo_congr (f f' m : Nat) (hf : m ≤ f) (hf' : m ≤ f') :
    bitLenGo f m = bitLenGo f' m := by
  induction f generalizing f' m with
  | zero =>
    have hm : m = 0 := by omega
    subst hm
    cases f' with
    | zero => rfl
    | succ f' => simp [bitLenGo]
  | succ f ih =>
    cases f' with
    | zero =>
      have hm : m = 0 := by omega
      subst hm
      simp [bitLenGo]
    | succ f' =>
      by_cases hm : m = 0
      · simp [bitLenGo, hm]
      · rw [bitLenGo, bitLenGo, if_neg hm, if_neg hm, ih f' (m / 2) (by omega) (by omega)]

theorem bitLen_zero : bitLen 0 = 0 := rfl

theorem bitLen_pos (m : Nat) (hm : m ≠ 0) : bitLen m = bitLen (m / 2) + 1 := by
  rw [bitLen, bitLen]
  cases hmm : m with
  | zero => exact absurd hmm hm
  | succ m' =>
    rw [bitLenGo, if_neg (by omega)]
    rw [bitLenGo_congr m' ((m' + 1) / 2) ((m' + 1) / 2) (by omega) (by omega)]

theorem bitLen_le_iff (m : Nat) : ∀ k, bitLen m ≤ k ↔ m < 2 ^ k := by
  induction m using Nat.strong_induction_on with
  | _ m ih =>
    intro k
    by_cases hm : m = 0
    · subst hm
      simp only [bitLen_zero]
      constructor
      · intro _
        exact Nat.two_pow_pos k
      · intro _
        exact Nat.zero_le k
    · rw [bitLen_pos m hm]
      cases k with
      | zero =>
        simp
        omega
      | succ k =>
        rw [Nat.succ_le_succ_iff, ih (m / 2) (by omega) k]
        have h2 : 2 ^ (k + 1) = 2 * 2 ^ k := by ring
        omega

theorem le_pow_ceilLog2 (n : Nat) : n ≤ 2 ^ ceilLog2 n := by
  have := (bitLen_le_iff (n - 1) (ceilLog2 n)).mp (Nat.le_refl _)
  omega

theorem ceilLog2_le (n k : Nat) (h : n ≤ 2 ^ k) : ceilLog2 n ≤ k := by
  have hp : 0 < 2 ^ k := Nat.two_pow_pos k
  exact (bitLen_le_iff (n - 1) k).mpr (by omega)

theorem ceilLog2_le_iff (n k : Nat) : ceilLog2 n ≤ k ↔ n ≤ 2 ^ k := by
  constructor
  · intro h
    exact Nat.le_trans (le_pow_ceilLog2 n) (Nat.pow_le_pow_right (by omega) h)
  · exact ceilLog2_le n k

/-! ## Unfolding the interpreter -/

theorem run_set_found [DecidableEq α] (fuel : Nat) (s : BlockArray α) (n : Nat) (v : α)
    (p : List Nat) (i : Nat) (hp : s.palette = some p)
    (hfind : pyIndex p (s.block_map.encode_block v) = some i) :
    run (fuel + 1) (.set s n v) = setRaw s n i := by
  simp only [run, hp, hfind]

theorem run_set_nopal [DecidableEq α] (fuel : Nat) (s : BlockArray α) (n : Nat) (v : α)
    (hp : s.palette = none) :
    run (fuel + 1) (.set s n v) = setRaw s n (s.block_map.encode_block v) := by
  simp only [run, hp]

theorem run_set_fresh [DecidableEq α] (fuel : Nat) (s : BlockArray α) (n : Nat) (v : α)
    (p : List Nat) (hp : s.palette = some p)
    (hfind : pyIndex p (s.block_map.encode_block v) = none) :
    run (fuel + 1) (.set s n v) =
      match run fuel (.rep s (some 1)) with
      | .error e => .error e
      | .ok s1 =>
        match s1.palette with
        | some p1 =>
          setRaw { s1 with palette := some (p1 ++ [s.block_map.encode_block v]) } n p1.length
        | none => setRaw s1 n (s.block_map.encode_block v) := by
  simp only [run, hp, hfind]

theorem run_rep_eq [DecidableEq α] (fuel : Nat) (s : BlockArray α) (reserve : Option Nat) :
    run (fuel + 1) (.rep s reserve) =
      match repPal s reserve with
      | none => .ok s
      | some (palette, palette_len) =>
        if palette_len = 0 then .error s
        else
          let bp := repBits s palette palette_len
          if s.bits = bp.1 then .ok s
          else
            match sliceAll s with
            | none => .error s
            | some values =>
              run fuel (.res { s with data := List.replicate (64 * bp.1) 0,
                                      bits := bp.1, palette := bp.2 }
                             ((List.range 4096).zip values)) := by
  simp only [run]

theorem run_res_nil [DecidableEq α] (fuel : Nat) (s : BlockArray α) :
    run (fuel + 1) (.res s []) = .ok s := by
  simp only [run]

theorem run_res_cons [DecidableEq α] (fuel : Nat) (s : BlockArray α) (n : Nat) (v : α)
    (rest : List (Nat × α)) :
    run (fuel + 1) (.res s ((n, v) :: rest)) =
      match run fuel (.set s n v) with
      | .error e => .error e
      | .ok s' => run fuel (.res s' rest) := by
  simp only [run]

/-! ## The restore loop `self[:] = values` -/

theorem cellId_eq_getD (s : BlockArray α) (n : Nat) (p : List Nat)
    (hp : s.palette = some p) : cellId s n = p.getD (cellRaw s n) 0 := by
  simp only [cellId, hp]

theorem cellId_eq_raw (s : BlockArray α) (n : Nat) (hp : s.palette = none) :
    cellId s n = cellRaw s n := by
  simp only [cellId, hp]

theorem run_res_spec [DecidableEq α] (values : List α) :
    ∀ (k fuel : Nat) (s : BlockArray α),
      k + values.length ≤ 4096 → values.length < fuel →
      s.data.length = 64 * s.bits → (∀ w ∈ s.data, w < 2 ^ 64) →
      1 ≤ s.bits → s.bits ≤ 64 →
      (∀ p, s.palette = some p → p.length ≤ 2 ^ s.bits ∧
        ∀ v ∈ values, s.block_map.encode_block v ∈ p) →
      (s.palette = none → ∀ v ∈ values, s.block_map.encode_block v < 2 ^ s.bits) →
      ∃ d', run fuel (.res s ((List.range' k values.length).zip values)) =
          .ok { s with data := d' } ∧
        d'.length = s.data.length ∧ (∀ w ∈ d', w < 2 ^ 64) ∧
        (∀ m, m < k ∨ k + values.length ≤ m →
          cellRaw { s with data := d' } m = cellRaw s m) ∧
        (∀ j v, values[j]? = some v →
          cellId { s with data := d' } (k + j) = s.block_map.encode_block v ∧
          ∀ p, s.palette = some p → cellRaw { s with data := d' } (k + j) < p.length) := by
  induction values with
  | nil =>
    intro k fuel s h4096 hfuel hlen hw hb1 hb64 hpal hdir
    obtain ⟨f, rfl⟩ : ∃ f, fuel = f + 1 := ⟨fuel - 1, by omega⟩
    refine ⟨s.data, ?_, rfl, hw, fun m _ => rfl, fun j v hj => by simp at hj⟩
    have hnil : (List.range' k (List.length ([] : List α))).zip ([] : List α) = [] := rfl
    rw [hnil, run_res_nil]
  | cons v vs ih =>
    intro k fuel s h4096 hfuel hlen hw hb1 hb64 hpal hdir
    have hlenc : (v :: vs).length = vs.length + 1 := rfl
    rw [hlenc] at h4096 hfuel
    obtain ⟨f', rfl⟩ : ∃ f', fuel = f' + 1 + 1 := ⟨fuel - 2, by omega⟩
    have hpairs : (List.range' k (vs.length + 1)).zip (v :: vs) =
        (k, v) :: (List.range' (k + 1) vs.length).zip vs := by
      rw [List.range'_succ]
      rfl
    have hk : k < 4096 := by omega
    have hpalsplit : (∃ p, s.palette = some p) ∨ s.palette = none := by
      cases s.palette with
      | some p => exact Or.inl ⟨p, rfl⟩
      | none => exact Or.inr rfl
    -- resolve the head value to the raw field value actually stored
    obtain ⟨i, hwrite, histore⟩ :
        ∃ i, run (f' + 1) (.set s k v) = setRaw s k i ∧
          (i % 2 ^ s.bits = i ∧
            (∀ p, s.palette = some p → i < p.length ∧ p.getD i 0 = s.block_map.encode_block v) ∧
            (s.palette = none → i = s.block_map.encode_block v)) := by
      rcases hpalsplit with ⟨p, hp⟩ | hp
      · have hmem : s.block_map.encode_block v ∈ p := (hpal p hp).2 v (by simp)
        obtain ⟨i, hfind, hilt, hgetD⟩ := pyIndex_mem p _ hmem
        refine ⟨i, run_set_found f' s k v p i hp hfind,
          Nat.mod_eq_of_lt (Nat.lt_of_lt_of_le hilt (hpal p hp).1), ?_, ?_⟩
        · intro p' hp'
          have hpp : p = p' := by
            have h1 : some p = some p' := hp ▸ hp'
            exact Option.some.inj h1
          subst hpp
          exact ⟨hilt, hgetD⟩
        · intro hnone
          rw [hp] at hnone
          exact absurd hnone (by simp)
      · have hbound : s.block_map.encode_block v < 2 ^ s.bits := hdir hp v (by simp)
        refine ⟨s.block_map.encode_block v, run_set_nopal f' s k v hp,
          Nat.mod_eq_of_lt hbound, ?_, fun _ => rfl⟩
        intro p' hp'
        rw [hp] at hp'
        exact absurd hp' (by simp)
    obtain ⟨d1, hok, hl1, hw1, hcells1⟩ := setRaw_cells s k i hw hb1 hb64 hlen hk
    have hstep : run (f' + 1 + 1) (.res s ((List.range' k (vs.length + 1)).zip (v :: vs))) =
        run (f' + 1) (.res { s with data := d1 }
          ((List.range' (k + 1) vs.length).zip vs)) := by
      rw [hpairs, run_res_cons, hwrite, hok]
    obtain ⟨d2, hok2, hl2, hw2, hun2, hset2⟩ :=
      ih (k + 1) (f' + 1) { s with data := d1 } (by omega) (by omega)
        (by rw [show ({ s with data := d1 } : BlockArray α).data = d1 from rfl, hl1, hlen])
        hw1 hb1 hb64
        (fun p' hp' => ⟨(hpal p' hp').1, fun u hu => (hpal p' hp').2 u (by simp [hu])⟩)
        (fun hp' u hu => hdir hp' u (by simp [hu]))
    refine ⟨d2, ?_, ?_, hw2, ?_, ?_⟩
    · rw [hlenc, hstep]
      exact hok2
    · rw [hl2, hl1]
    · intro m hm
      have h1 : cellRaw { s with data := d2 } m = cellRaw { s with data := d1 } m :=
        hun2 m (by omega)
      rw [h1, hcells1 m, if_neg (by omega)]
    · intro j v' hj
      cases j with
      | zero =>
        have hv : v' = v := by
          simp at hj
          exact hj.symm
        subst hv
        have h1 : cellRaw { s with data := d2 } k = cellRaw { s with data := d1 } k :=
          hun2 k (by omega)
        have h2 : cellRaw { s with data := d1 } k = i := by
          rw [hcells1 k, if_pos rfl, histore.1]
        constructor
        · show cellId { s with data := d2 } (k + 0) = _
          rw [show k + 0 = k from rfl]
          rcases hpalsplit with ⟨p, hp⟩ | hp
          · rw [cellId_eq_getD { s with data := d2 } k p hp, h1, h2]
            exact (histore.2.1 p hp).2
          · rw [cellId_eq_raw { s with data := d2 } k hp, h1, h2, histore.2.2 hp]
        · intro p' hp'
          rw [show k + 0 = k from rfl, h1, h2]
          exact (histore.2.1 p' hp').1
      | succ j' =>
        have hj' : vs[j']? = some v' := by simpa using hj
        obtain ⟨hc, hcb⟩ := hset2 j' v' hj'
        have harith : k + 1 + j' = k + (j' + 1) := by omega
        rw [harith] at hc hcb
        exact ⟨hc, hcb⟩

/-! ## `repack` -/

theorem cellId_mem_palette (s : BlockArray α) (m : Nat) (p : List Nat) (hWF : WF s)
    (hp : s.palette = some p) (hm : m < 4096) : cellId s m ∈ p := by
  rw [cellId_eq_getD s m p hp]
  have h1 := (hWF.hpal p hp).2.2.2 m hm
  rw [List.getD_eq_getElem?_getD, List.getElem?_eq_getElem h1]
  exact List.getElem_mem _

theorem cellId_RT (s : BlockArray α) (m : Nat) (hWF : WF s) (hm : m < 4096) :
    RT s.block_map (cellId s m) := by
  rcases hps : s.palette with _ | p
  · rw [cellId_eq_raw s m hps]
    exact (hWF.hdir hps).2 m hm
  · exact (hWF.hpal p hps).1 _ (cellId_mem_palette s m p hWF hps hm)

theorem values_getElem (s : BlockArray α) (m : Nat) (hm : m < 4096) :
    ((List.range 4096).map (fun n => s.block_map.decode_block (cellId s n)))[m]? =
      some (s.block_map.decode_block (cellId s m)) := by
  rw [List.getElem?_map, List.getElem?_range hm]
  rfl

theorem run_rep_noop [DecidableEq α] (fuel : Nat) (s : BlockArray α) (r : Option Nat)
    (pal : List Nat) (len : Nat) (hrp : repPal s r = some (pal, len))
    (hlen : ¬ len = 0) (hbits : s.bits = (repBits s pal len).1) :
    run (fuel + 1) (.rep s r) = .ok s := by
  rw [run_rep_eq, hrp]
  simp only [if_neg hlen, if_pos hbits]

theorem run_rep_go [DecidableEq α] (fuel : Nat) (s : BlockArray α) (r : Option Nat)
    (pal : List Nat) (len : Nat) (values : List α)
    (hrp : repPal s r = some (pal, len)) (hlen : ¬ len = 0)
    (hbits : ¬ s.bits = (repBits s pal len).1) (hslice : sliceAll s = some values) :
    run (fuel + 1) (.rep s r) =
      run fuel (.res { s with data := List.replicate (64 * (repBits s pal len).1) 0,
                              bits := (repBits s pal len).1,
                              palette := (repBits s pal len).2 }
                     ((List.range 4096).zip values)) := by
  rw [run_rep_eq, hrp]
  simp only [if_neg hlen, if_neg hbits, hslice]

theorem run_rep_spec [DecidableEq α] (fuel : Nat) (s : BlockArray α) (r : Option Nat)
    (hWF : WF s) (hG : GoodMap s.block_map) (hfuel : 4097 ≤ fuel) :
    ∃ s', run (fuel + 1) (.rep s r) = .ok s' ∧ WF s' ∧
      s'.block_map = s.block_map ∧
      (∀ m, m < 4096 → cellId s' m = cellId s m) ∧
      (match repPal s r with
       | none => s' = s
       | some (pal, len) =>
         (s.bits = (repBits s pal len).1 → s' = s) ∧
         (¬ s.bits = (repBits s pal len).1 →
           s'.bits = (repBits s pal len).1 ∧ s'.palette = (repBits s pal len).2)) := by
  -- common argument for both candidate shapes
  have hmain : ∀ (pal : List Nat) (len : Nat),
      repPal s r = some (pal, len) → 1 ≤ len →
      (∀ g ∈ pal, RT s.block_map g) →
      ((repBits s pal len).2 = some pal → pal.length ≤ len) →
      (∀ m, m < 4096 → cellId s m ∈ pal) →
      ∃ s', run (fuel + 1) (.rep s r) = .ok s' ∧ WF s' ∧
        s'.block_map = s.block_map ∧
        (∀ m, m < 4096 → cellId s' m = cellId s m) ∧
        ((s.bits = (repBits s pal len).1 → s' = s) ∧
         (¬ s.bits = (repBits s pal len).1 →
           s'.bits = (repBits s pal len).1 ∧ s'.palette = (repBits s pal len).2)) := by
    intro pal len hrp hlen1 hrt hple hmem
    by_cases hbits : s.bits = (repBits s pal len).1
    · rw [run_rep_noop fuel s r pal len hrp (by omega) hbits]
      exact ⟨s, rfl, hWF, rfl, fun m _ => rfl, fun _ => rfl, fun h => absurd hbits h⟩
    · rw [run_rep_go fuel s r pal len _ hrp (by omega) hbits (sliceAll_eq s hWF)]
      -- bounds on the new width
      have hb0le : len ≤ 2 ^ ceilLog2 len := le_pow_ceilLog2 len
      have hbp : (4 ≤ (repBits s pal len).1 ∧ (repBits s pal len).1 ≤ 8 ∧
            (repBits s pal len).2 = some pal ∧ ceilLog2 len ≤ (repBits s pal len).1) ∨
          ((repBits s pal len).1 = s.block_map.max_bits ∧ (repBits s pal len).2 = none) := by
        rw [repBits]
        by_cases h8 : ceilLog2 len ≤ 8
        · rw [if_pos h8]
          by_cases h4 : ceilLog2 len < 4
          · rw [if_pos h4]
            exact Or.inl ⟨by omega, by omega, rfl, by omega⟩
          · rw [if_neg h4]
            exact Or.inl ⟨by omega, by omega, rfl, by omega⟩
        · rw [if_neg h8]
          exact Or.inr ⟨rfl, rfl⟩
      have hb1' : 1 ≤ (repBits s pal len).1 := by
        rcases hbp with ⟨h, _⟩ | ⟨h, _⟩
        · omega
        · rw [h]
          have := hG.gt8
          omega
      have hb64' : (repBits s pal len).1 ≤ 64 := by
        rcases hbp with ⟨_, h, _⟩ | ⟨h, _⟩
        · omega
        · rw [h]
          exact hG.le64
      obtain ⟨d', hrun, hdlen, hdw, _, hset⟩ :=
        run_res_spec ((List.range 4096).map (fun n => s.block_map.decode_block (cellId s n)))
          0 fuel
          { s with data := List.replicate (64 * (repBits s pal len).1) 0,
                   bits := (repBits s pal len).1, palette := (repBits s pal len).2 }
          (by simp) (by simp; omega)
          (by simp) (by intro w hw; simp at hw; omega) hb1' hb64'
          (by
            intro p' hp'
            have hpeq : (repBits s pal len).2 = some p' := hp'
            rcases hbp with ⟨_, _, hsome, hle0⟩ | ⟨_, hnone⟩
            · have hpp : p' = pal := by
                rw [hsome] at hpeq
                exact (Option.some.inj hpeq).symm
              constructor
              · show p'.length ≤ 2 ^ (repBits s pal len).1
                rw [hpp]
                calc pal.length ≤ len := hple hsome
                  _ ≤ 2 ^ ceilLog2 len := hb0le
                  _ ≤ 2 ^ (repBits s pal len).1 := Nat.pow_le_pow_right (by omega) hle0
              · intro v hv
                rcases List.mem_map.mp hv with ⟨m, hm, rfl⟩
                have hm4096 : m < 4096 := by simpa using hm
                have hrtc := cellId_RT s m hWF hm4096
                show s.block_map.encode_block (s.block_map.decode_block (cellId s m)) ∈ p'
                rw [hrtc.1, hpp]
                exact hmem m hm4096
            · rw [hnone] at hpeq
              exact absurd hpeq (by simp))
          (by
            intro hp' v hv
            have hpeq : (repBits s pal len).2 = none := hp'
            rcases List.mem_map.mp hv with ⟨m, hm, rfl⟩
            have hm4096 : m < 4096 := by simpa using hm
            have hrtc := cellId_RT s m hWF hm4096
            rcases hbp with ⟨_, _, hsome, _⟩ | ⟨hmax, _⟩
            · rw [hsome] at hpeq
              exact absurd hpeq (by simp)
            · show s.block_map.encode_block (s.block_map.decode_block (cellId s m)) <
                2 ^ (repBits s pal len).1
              rw [hrtc.1, hmax]
              exact hrtc.2)
      rw [show ((List.range 4096).map
            (fun n => s.block_map.decode_block (cellId s n))).length = 4096 by simp,
          ← List.range_eq_range'] at hrun
      refine ⟨{ s with data := d', bits := (repBits s pal len).1,
                       palette := (repBits s pal len).2 },
        ?_, ?_, rfl, ?_, fun h => absurd h hbits, fun _ => ⟨rfl, rfl⟩⟩
      · exact hrun
      · -- well-formedness of the repacked state
        refine ⟨?_, hdw, hb1', hb64', ?_, ?_⟩
        · rw [hdlen]
          simp
        · intro p' hp'
          have hpeq : (repBits s pal len).2 = some p' := hp'
          rcases hbp with ⟨_, h8, hsome, hle0⟩ | ⟨_, hnone⟩
          · have hpp : p' = pal := by
              rw [hsome] at hpeq
              exact (Option.some.inj hpeq).symm
            refine ⟨by rw [hpp]; exact hrt, ?_, by show (repBits s pal len).1 ≤ 8; omega, ?_⟩
            · show p'.length ≤ 2 ^ (repBits s pal len).1
              rw [hpp]
              calc pal.length ≤ len := hple hsome
                _ ≤ 2 ^ ceilLog2 len := hb0le
                _ ≤ 2 ^ (repBits s pal len).1 := Nat.pow_le_pow_right (by omega) hle0
            · intro m hm
              obtain ⟨_, hlt⟩ := hset m (s.block_map.decode_block (cellId s m))
                (values_getElem s m hm)
              have hlt' := hlt p' hp'
              rw [show (0 : Nat) + m = m from by omega] at hlt'
              exact hlt'
          · rw [hnone] at hpeq
            exact absurd hpeq (by simp)
        · intro hp'
          have hpeq : (repBits s pal len).2 = none := hp'
          rcases hbp with ⟨_, _, hsome, _⟩ | ⟨hmax, hnone⟩
          · rw [hsome] at hpeq
            exact absurd hpeq (by simp)
          · constructor
            · exact hmax
            · intro m hm
              obtain ⟨hcid, _⟩ := hset m (s.block_map.decode_block (cellId s m))
                (values_getElem s m hm)
              rw [show (0 : Nat) + m = m from by omega] at hcid
              have hraw := cellId_eq_raw
                { s with data := d', bits := (repBits s pal len).1,
                         palette := (repBits s pal len).2 } m hp'
              rw [← hraw, hcid, (cellId_RT s m hWF hm).1]
              exact cellId_RT s m hWF hm
      · intro m hm
        obtain ⟨hcid, _⟩ := hset m (s.block_map.decode_block (cellId s m))
          (values_getElem s m hm)
        rw [show (0 : Nat) + m = m from by omega] at hcid
        rw [hcid, (cellId_RT s m hWF hm).1]
  -- dispatch on the reserve argument and palette
  cases r with
  | none =>
    -- repack() with no reserve
    have hscan : (s.block_map.decode_block (cellId s 0)) ∈ pySet (scanVals s) := by
      rw [mem_pySet, scanVals_eq s hWF]
      exact List.mem_map_of_mem _ (by simp)
    have hrp : repPal s none =
        some ((pySet (scanVals s)).map s.block_map.encode_block,
          ((pySet (scanVals s)).map s.block_map.encode_block).length) := rfl
    refine hmain _ _ hrp ?_ ?_ ?_ ?_
    · have := List.length_pos.mpr (List.ne_nil_of_mem hscan)
      simp only [List.length_map]
      omega
    · intro g hg
      rcases List.mem_map.mp hg with ⟨d, _, rfl⟩
      exact ⟨by rw [hG.rt], hG.bound d⟩
    · intro _
      exact Nat.le_refl _
    · intro m hm
      have hv : s.block_map.decode_block (cellId s m) ∈ pySet (scanVals s) := by
        rw [mem_pySet, scanVals_eq s hWF]
        exact List.mem_map_of_mem _ (by simp [hm])
      have := List.mem_map_of_mem s.block_map.encode_block hv
      rwa [(cellId_RT s m hWF hm).1] at this
  | some rr =>
    rcases hps : s.palette with _ | p
    · -- reserving space in an unpaletted array: no-op
      have hrp : repPal s (some rr) = none := by
        rw [repPal, hps]
      rw [run_rep_eq, hrp]
      exact ⟨s, rfl, hWF, rfl, fun m _ => rfl, rfl⟩
    · have hrp : repPal s (some rr) = some (p, p.length + rr) := by
        rw [repPal, hps]
      rw [hrp]
      refine hmain _ _ hrp ?_ ?_ ?_ ?_
      · have := (hWF.hpal p hps).2.2.2 0 (by omega)
        omega
      · exact fun g hg => (hWF.hpal p hps).1 g hg
      · intro _
        omega
      · exact fun m hm => cellId_mem_palette s m p hWF hps hm

/-! ## `__setitem__` -/

theorem run_set_fresh_ok [DecidableEq α] (fuel : Nat) (s : BlockArray α) (n : Nat) (v : α)
    (p : List Nat) (s1 : BlockArray α) (hps : s.palette = some p)
    (hfind : pyIndex p (s.block_map.encode_block v) = none)
    (hrep : run fuel (.rep s (some 1)) = .ok s1) :
    run (fuel + 1) (.set s n v) =
      match s1.palette with
      | some p1 =>
        setRaw { s1 with palette := some (p1 ++ [s.block_map.encode_block v]) } n p1.length
      | none => setRaw s1 n (s.block_map.encode_block v) := by
  rw [run_set_fresh fuel s n v p hps hfind, hrep]

theorem run_set_fresh_pal [DecidableEq α] (fuel : Nat) (s : BlockArray α) (n : Nat) (v : α)
    (p : List Nat) (s1 : BlockArray α) (p1 : List Nat) (hps : s.palette = some p)
    (hfind : pyIndex p (s.block_map.encode_block v) = none)
    (hrep : run fuel (.rep s (some 1)) = .ok s1) (hs1p : s1.palette = some p1) :
    run (fuel + 1) (.set s n v) =
      setRaw { s1 with palette := some (p1 ++ [s.block_map.encode_block v]) } n p1.length := by
  rw [run_set_fresh_ok fuel s n v p s1 hps hfind hrep, hs1p]

theorem run_set_fresh_dir [DecidableEq α] (fuel : Nat) (s : BlockArray α) (n : Nat) (v : α)
    (p : List Nat) (s1 : BlockArray α) (hps : s.palette = some p)
    (hfind : pyIndex p (s.block_map.encode_block v) = none)
    (hrep : run fuel (.rep s (some 1)) = .ok s1) (hs1p : s1.palette = none) :
    run (fuel + 1) (.set s n v) = setRaw s1 n (s.block_map.encode_block v) := by
  rw [run_set_fresh_ok fuel s n v p s1 hps hfind hrep, hs1p]

theorem run_set_spec [DecidableEq α] (fuel : Nat) (s : BlockArray α) (n : Nat) (v : α)
    (hWF : WF s) (hG : GoodMap s.block_map) (hn : n < 4096) (hfuel : 4098 ≤ fuel) :
    ∃ s', run (fuel + 1) (.set s n v) = .ok s' ∧ WF s' ∧
      s'.block_map = s.block_map ∧
      cellId s' n = s.block_map.encode_block v ∧
      (∀ m, m < 4096 → m ≠ n → cellId s' m = cellId s m) ∧
      (match s.palette with
       | none => s'.palette = none ∧ s'.bits = s.bits
       | some p =>
         (s.block_map.encode_block v ∈ p → s'.palette = some p ∧ s'.bits = s.bits) ∧
         (s.block_map.encode_block v ∉ p →
           (ceilLog2 (p.length + 1) ≤ 8 →
             s'.palette = some (p ++ [s.block_map.encode_block v]) ∧
             s'.bits = if ceilLog2 (p.length + 1) < 4 then 4 else ceilLog2 (p.length + 1)) ∧
           (8 < ceilLog2 (p.length + 1) →
             s'.palette = none ∧ s'.bits = s.block_map.max_bits))) := by
  obtain ⟨f, rfl⟩ : ∃ f, fuel = f + 1 := ⟨fuel - 1, by omega⟩
  rcases hps : s.palette with _ | p
  · -- direct mode: the id is stored as the field value
    have hmax := (hWF.hdir hps).1
    have hbound : s.block_map.encode_block v < 2 ^ s.bits := by
      rw [hmax]
      exact hG.bound v
    obtain ⟨d', hok, hl, hw', hcells⟩ :=
      setRaw_cells s n (s.block_map.encode_block v) hWF.hwords hWF.hb1 hWF.hb64 hWF.hlen hn
    refine ⟨{ s with data := d' }, ?_, ?_, rfl, ?_, ?_, hps, rfl⟩
    · rw [run_set_nopal (f + 1) s n v hps]
      exact hok
    · refine ⟨by rw [hl, hWF.hlen], hw', hWF.hb1, hWF.hb64, ?_, ?_⟩
      · intro p' hp'
        rw [show ({ s with data := d' } : BlockArray α).palette = s.palette from rfl,
          hps] at hp'
        exact absurd hp' (by simp)
      · intro _
        refine ⟨hmax, ?_⟩
        intro m hm
        rw [hcells m]
        by_cases hmn : m = n
        · rw [if_pos hmn, Nat.mod_eq_of_lt hbound]
          exact ⟨by rw [hG.rt], by rw [hmax] at hbound; exact hbound⟩
        · rw [if_neg hmn]
          exact (hWF.hdir hps).2 m hm
    · rw [cellId_eq_raw { s with data := d' } n hps, hcells n, if_pos rfl,
        Nat.mod_eq_of_lt hbound]
    · intro m hm hmn
      rw [cellId_eq_raw { s with data := d' } m hps, cellId_eq_raw s m hps, hcells m,
        if_neg hmn]
  · by_cases hmem : s.block_map.encode_block v ∈ p
    · -- the id is already in the palette: store its first position
      obtain ⟨i, hfind, hilt, hgetD⟩ := pyIndex_mem p _ hmem
      have hlenp := (hWF.hpal p hps).2.1
      obtain ⟨d', hok, hl, hw', hcells⟩ :=
        setRaw_cells s n i hWF.hwords hWF.hb1 hWF.hb64 hWF.hlen hn
      have himod : i % 2 ^ s.bits = i :=
        Nat.mod_eq_of_lt (Nat.lt_of_lt_of_le hilt hlenp)
      refine ⟨{ s with data := d' }, ?_, ?_, rfl, ?_, ?_,
        fun _ => ⟨hps, rfl⟩, fun hnot => absurd hmem hnot⟩
      · rw [run_set_found (f + 1) s n v p i hps hfind]
        exact hok
      · refine ⟨by rw [hl, hWF.hlen], hw', hWF.hb1, hWF.hb64, ?_, ?_⟩
        · intro p' hp'
          have hpp : p' = p := by
            rw [show ({ s with data := d' } : BlockArray α).palette = s.palette from rfl,
              hps] at hp'
            exact (Option.some.inj hp').symm
          subst hpp
          refine ⟨(hWF.hpal p' hps).1, (hWF.hpal p' hps).2.1, (hWF.hpal p' hps).2.2.1, ?_⟩
          intro m hm
          show cellRaw { s with data := d' } m < p'.length
          rw [hcells m]
          by_cases hmn : m = n
          · rw [if_pos hmn, himod]
            exact hilt
          · rw [if_neg hmn]
            exact (hWF.hpal p' hps).2.2.2 m hm
        · intro hp'
          rw [show ({ s with data := d' } : BlockArray α).palette = s.palette from rfl,
            hps] at hp'
          exact absurd hp' (by simp)
      · rw [cellId_eq_getD { s with data := d' } n p hps, hcells n, if_pos rfl, himod,
          hgetD]
      · intro m hm hmn
        rw [cellId_eq_getD { s with data := d' } m p hps, cellId_eq_getD s m p hps,
          hcells m, if_neg hmn]
    · -- fresh id: repack(reserve=1), then append (or store directly)
      have hfind : pyIndex p (s.block_map.encode_block v) = none :=
        (pyIndex_eq_none p _).mpr hmem
      obtain ⟨s1, hrep, hWF1, hbm1, hcid1, hnoop⟩ :=
        run_rep_spec f s (some 1) hWF hG (by omega)
      have hrp1 : repPal s (some 1) = some (p, p.length + 1) := by
        rw [repPal, hps]
      rw [hrp1] at hnoop
      have hbits8 := (hWF.hpal p hps).2.2.1
      by_cases h8 : ceilLog2 (p.length + 1) ≤ 8
      · -- the palette survives; the id is appended
        have hbp1 : (repBits s p (p.length + 1)).1 =
            if ceilLog2 (p.length + 1) < 4 then 4 else ceilLog2 (p.length + 1) := by
          rw [repBits, if_pos h8]
        have hbp2 : (repBits s p (p.length + 1)).2 = some p := by
          rw [repBits, if_pos h8]
        have hs1 : s1.palette = some p ∧ s1.bits =
            (if ceilLog2 (p.length + 1) < 4 then 4 else ceilLog2 (p.length + 1)) := by
          by_cases hno : s.bits = (repBits s p (p.length + 1)).1
          · have hs1s := hnoop.1 hno
            subst hs1s
            exact ⟨hps, by rw [← hbp1, hno]⟩
          · obtain ⟨hb, hpq⟩ := hnoop.2 hno
            exact ⟨by rw [hpq, hbp2], by rw [hb, hbp1]⟩
        rw [run_set_fresh_pal (f + 1) s n v p s1 p hps hfind hrep hs1.1]
        -- the appended palette bounds
        have hclamp : ceilLog2 (p.length + 1) ≤
            (if ceilLog2 (p.length + 1) < 4 then 4 else ceilLog2 (p.length + 1)) := by
          by_cases h4 : ceilLog2 (p.length + 1) < 4
          · rw [if_pos h4]
            omega
          · rw [if_neg h4]
        have hplen1 : p.length + 1 ≤ 2 ^ s1.bits := by
          rw [hs1.2]
          exact Nat.le_trans (le_pow_ceilLog2 _) (Nat.pow_le_pow_right (by omega) hclamp)
        have hplt : p.length < 2 ^ s1.bits := by omega
        obtain ⟨d'', hok, hl, hw', hcells⟩ :=
          setRaw_cells { s1 with palette := some (p ++ [s.block_map.encode_block v]) } n
            p.length hWF1.hwords hWF1.hb1 hWF1.hb64 hWF1.hlen hn
        have hraw2 : ∀ m, cellRaw ({ s1 with
            palette := some (p ++ [s.block_map.encode_block v]) } : BlockArray α) m =
            cellRaw s1 m := fun m => rfl
        have hfields1 := fun m hm => (hWF1.hpal p hs1.1).2.2.2 m hm
        refine ⟨_, hok, ?_, hbm1, ?_, ?_, fun hin => absurd hin hmem,
          fun _ => ⟨fun _ => ⟨rfl, hs1.2⟩, fun hgt => absurd h8 (by omega)⟩⟩
        · refine ⟨by rw [hl, hWF1.hlen], hw', hWF1.hb1, hWF1.hb64, ?_, ?_⟩
          · intro p' hp'
            have hpp : p' = p ++ [s.block_map.encode_block v] :=
              (Option.some.inj hp').symm
            subst hpp
            refine ⟨?_, ?_, ?_, ?_⟩
            · intro g hg
              rcases List.mem_append.mp hg with hg | hg
              · have := (hWF.hpal p hps).1 g hg
                rw [show ({ s1 with palette := some (p ++ [s.block_map.encode_block v]) }
                  : BlockArray α).block_map = s1.block_map from rfl, hbm1]
                exact this
              · have hgv : g = s.block_map.encode_block v := by simpa using hg
                subst hgv
                rw [show ({ s1 with palette := some (p ++ [s.block_map.encode_block v]) }
                  : BlockArray α).block_map = s1.block_map from rfl, hbm1]
                exact ⟨by rw [hG.rt], hG.bound v⟩
            · rw [List.length_append]
              simpa using hplen1
            · show s1.bits ≤ 8
              rw [hs1.2]
              by_cases h4 : ceilLog2 (p.length + 1) < 4
              · rw [if_pos h4]
                omega
              · rw [if_neg h4]
                omega
            · intro m hm
              rw [List.length_append]
              show cellRaw _ m < p.length + 1
              rw [hcells m]
              by_cases hmn : m = n
              · rw [if_pos hmn]
                show p.length % 2 ^ s1.bits < p.length + 1
                have hmod : p.length % 2 ^ s1.bits = p.length := Nat.mod_eq_of_lt hplt
                omega
              · rw [if_neg hmn, hraw2 m]
                have := hfields1 m hm
                omega
          · intro hp'
            exact absurd hp' (by simp)
        · rw [cellId_eq_getD _ n (p ++ [s.block_map.encode_block v]) rfl, hcells n,
            if_pos rfl, Nat.mod_eq_of_lt hplt, List.getD_append_right p _ 0 p.length
              (Nat.le_refl _), Nat.sub_self]
          rfl
        · intro m hm hmn
          rw [cellId_eq_getD _ m (p ++ [s.block_map.encode_block v]) rfl, hcells m,
            if_neg hmn, hraw2 m, List.getD_append p _ 0 _ (hfields1 m hm),
            ← cellId_eq_getD s1 m p hs1.1]
          exact hcid1 m hm
      · -- the candidate width exceeds 8: switch to direct mode
        have hbp1 : (repBits s p (p.length + 1)).1 = s.block_map.max_bits := by
          rw [repBits, if_neg h8]
        have hbp2 : (repBits s p (p.length + 1)).2 = none := by
          rw [repBits, if_neg h8]
        have hneq : ¬ s.bits = (repBits s p (p.length + 1)).1 := by
          rw [hbp1]
          have := hG.gt8
          omega
        obtain ⟨hb, hpq⟩ := hnoop.2 hneq
        have hs1p : s1.palette = none := by rw [hpq, hbp2]
        have hs1b : s1.bits = s.block_map.max_bits := by rw [hb, hbp1]
        rw [run_set_fresh_dir (f + 1) s n v p s1 hps hfind hrep hs1p]
        have hbound : s.block_map.encode_block v < 2 ^ s1.bits := by
          rw [hs1b]
          exact hG.bound v
        obtain ⟨d'', hok, hl, hw', hcells⟩ :=
          setRaw_cells s1 n (s.block_map.encode_block v)
            hWF1.hwords hWF1.hb1 hWF1.hb64 hWF1.hlen hn
        refine ⟨{ s1 with data := d'' }, hok, ?_, hbm1, ?_, ?_, fun hin => absurd hin hmem,
          fun _ => ⟨fun h8' => absurd h8' h8, fun _ => ⟨hs1p, by
            show s1.bits = s.block_map.max_bits
            exact hs1b⟩⟩⟩
        · refine ⟨by rw [hl, hWF1.hlen], hw', hWF1.hb1, hWF1.hb64, ?_, ?_⟩
          · intro p' hp'
            rw [show ({ s1 with data := d'' } : BlockArray α).palette = s1.palette from rfl,
              hs1p] at hp'
            exact absurd hp' (by simp)
          · intro _
            constructor
            · show s1.bits = ({ s1 with data := d'' } : BlockArray α).block_map.max_bits
              rw [show ({ s1 with data := d'' } : BlockArray α).block_map = s1.block_map
                from rfl, hbm1]
              exact hs1b
            · intro m hm
              have hgoal : RT s.block_map (cellRaw { s1 with data := d'' } m) := by
                rw [hcells m]
                by_cases hmn : m = n
                · rw [if_pos hmn, Nat.mod_eq_of_lt hbound]
                  refine ⟨by rw [hG.rt], ?_⟩
                  rw [hs1b] at hbound
                  exact hbound
                · rw [if_neg hmn]
                  have h1 : cellRaw s1 m = cellId s1 m := (cellId_eq_raw s1 m hs1p).symm
                  rw [h1, hcid1 m hm]
                  exact cellId_RT s m hWF hm
              show RT ({ s1 with data := d'' } : BlockArray α).block_map
                (cellRaw { s1 with data := d'' } m)
              rw [show ({ s1 with data := d'' } : BlockArray α).block_map = s1.block_map
                from rfl, hbm1]
              exact hgoal
        · rw [cellId_eq_raw { s1 with data := d'' } n hs1p, hcells n, if_pos rfl,
            Nat.mod_eq_of_lt hbound]
        · intro m hm hmn
          rw [cellId_eq_raw { s1 with data := d'' } m hs1p, hcells m, if_neg hmn,
            ← cellId_eq_raw s1 m hs1p]
          exact hcid1 m hm

/-! ## Reachable states are well-formed -/

theorem WF_empty (bm : BlockMap α) (hG : GoodMap bm) : WF (BlockArray.empty bm) := by
  have hraw : ∀ n, cellRaw (BlockArray.empty bm) n = 0 := by
    intro n
    show (wordsVal (List.replicate 256 0) >>> (4 * n)) % 2 ^ 4 = 0
    rw [wordsVal_replicate_zero, Nat.zero_shiftRight]
    rfl
  refine ⟨?_, ?_, by show (1 : Nat) ≤ 4; decide, by show (4 : Nat) ≤ 64; decide, ?_, ?_⟩
  · rw [show (BlockArray.empty bm).data = List.replicate 256 0 from rfl,
      List.length_replicate]
    rfl
  · intro w hw
    rw [show (BlockArray.empty bm).data = List.replicate 256 0 from rfl] at hw
    rw [List.eq_of_mem_replicate hw]
    exact Nat.two_pow_pos 64
  · intro p hp
    have hpp : p = [0] := Option.some.inj hp.symm
    subst hpp
    refine ⟨?_, by show [(0 : Nat)].length ≤ 2 ^ 4; decide, by show (4 : Nat) ≤ 8; decide, ?_⟩
    · intro g hg
      have hg0 : g = 0 := by simpa using hg
      subst hg0
      exact ⟨hG.zero, Nat.two_pow_pos _⟩
    · intro n _
      rw [hraw n]
      decide
  · intro hp
    exact Option.noConfusion hp

theorem setitem_run (s : BlockArray α) [DecidableEq α] (n : Nat) (v : α) :
    setitem s n v = run (8191 + 1) (.set s n v) := rfl

theorem repack_run (s : BlockArray α) [DecidableEq α] (r : Option Nat) :
    repack s r = run (8191 + 1) (.rep s r) := rfl

theorem reachable_WF [DecidableEq α] (bm : BlockMap α) (hG : GoodMap bm)
    (s : BlockArray α) (h : Reachable bm s) : WF s ∧ s.block_map = bm := by
  induction h with
  | empty => exact ⟨WF_empty bm hG, rfl⟩
  | write hr hn hset ih =>
    rename_i s0 s' n v
    obtain ⟨hWF, hbm⟩ := ih
    have hG0 : GoodMap s0.block_map := by rw [hbm]; exact hG
    obtain ⟨s'', hok, hWF', hbm', _, _, _⟩ :=
      run_set_spec 8191 s0 n v hWF hG0 hn (by omega)
    rw [setitem_run, hok] at hset
    have hss : s'' = s' := Except.ok.inj hset
    subst hss
    exact ⟨hWF', by rw [hbm', hbm]⟩
  | rep hr hrep ih =>
    rename_i s0 s' r
    obtain ⟨hWF, hbm⟩ := ih
    have hG0 : GoodMap s0.block_map := by rw [hbm]; exact hG
    obtain ⟨s'', hok, hWF', hbm', _, _⟩ :=
      run_rep_spec 8191 s0 r hWF hG0 (by omega)
    rw [repack_run, hok] at hrep
    have hss : s'' = s' := Except.ok.inj hrep
    subst hss
    exact ⟨hWF', by rw [hbm', hbm]⟩

/-! ## Supporting facts for the claims -/

theorem goodNatMap : GoodMap natMap := by
  refine ⟨?_, ?_, by decide, by decide, by decide⟩
  · intro d
    apply Fin.ext
    show d.val % 65536 = d.val
    exact Nat.mod_eq_of_lt d.isLt
  · intro d
    show d.val < 2 ^ 16
    exact d.isLt

theorem cellRaw_empty (bm : BlockMap α) (m : Nat) : cellRaw (BlockArray.empty bm) m = 0 := by
  show (wordsVal (List.replicate 256 0) >>> (4 * m)) % 2 ^ 4 = 0
  rw [wordsVal_replicate_zero, Nat.zero_shiftRight]
  rfl

theorem cellId_empty (bm : BlockMap α) (m : Nat) : cellId (BlockArray.empty bm) m = 0 := by
  rw [cellId_eq_getD (BlockArray.empty bm) m [0] rfl, cellRaw_empty]
  rfl

theorem setitem_spec [DecidableEq α] (s : BlockArray α) (n : Nat) (v : α)
    (hWF : WF s) (hG : GoodMap s.block_map) (hn : n < 4096) :
    ∃ s', setitem s n v = .ok s' ∧ WF s' ∧
      s'.block_map = s.block_map ∧
      cellId s' n = s.block_map.encode_block v ∧
      (∀ m, m < 4096 → m ≠ n → cellId s' m = cellId s m) ∧
      (match s.palette with
       | none => s'.palette = none ∧ s'.bits = s.bits
       | some p =>
         (s.block_map.encode_block v ∈ p → s'.palette = some p ∧ s'.bits = s.bits) ∧
         (s.block_map.encode_block v ∉ p →
           (ceilLog2 (p.length + 1) ≤ 8 →
             s'.palette = some (p ++ [s.block_map.encode_block v]) ∧
             s'.bits = if ceilLog2 (p.length + 1) < 4 then 4 else ceilLog2 (p.length + 1)) ∧
           (8 < ceilLog2 (p.length + 1) →
             s'.palette = none ∧ s'.bits = s.block_map.max_bits))) := by
  rw [setitem_run]
  exact run_set_spec 8191 s n v hWF hG hn (by omega)

theorem repack_spec [DecidableEq α] (s : BlockArray α) (r : Option Nat)
    (hWF : WF s) (hG : GoodMap s.block_map) :
    ∃ s', repack s r = .ok s' ∧ WF s' ∧
      s'.block_map = s.block_map ∧
      (∀ m, m < 4096 → cellId s' m = cellId s m) ∧
      (match repPal s r with
       | none => s' = s
       | some (pal, len) =>
         (s.bits = (repBits s pal len).1 → s' = s) ∧
         (¬ s.bits = (repBits s pal len).1 →
           s'.bits = (repBits s pal len).1 ∧ s'.palette = (repBits s pal len).2)) := by
  rw [repack_run]
  exact run_rep_spec 8191 s r hWF hG (by omega)

theorem repBits_congr (s1 s : BlockArray α) (h : s1.block_map = s.block_map)
    (pal : List Nat) (len : Nat) : repBits s1 pal len = repBits s pal len := by
  unfold repBits
  rw [h]

theorem wordsVal_zero_of_all (d : List Nat) (h : ∀ w ∈ d, w = 0) : wordsVal d = 0 := by
  induction d with
  | nil => rfl
  | cons w ws ih =>
    show w % 2 ^ 64 + 2 ^ 64 * wordsVal ws = 0
    rw [h w (List.mem_cons_self w ws), ih (fun x hx => h x (List.mem_cons_of_mem w hx)),
      Nat.zero_mod, Nat.mul_zero, Nat.add_zero]

theorem scan_pal_ne_nil [DecidableEq α] (s : BlockArray α) (hWF : WF s) :
    ¬ ((pySet (scanVals s)).map s.block_map.encode_block).length = 0 := by
  rw [List.length_map]
  intro h
  have hmem : s.block_map.decode_block (cellId s 0) ∈ pySet (scanVals s) := by
    rw [mem_pySet, scanVals_eq s hWF]
    exact List.mem_map.mpr ⟨0, List.mem_range.mpr (by omega), rfl⟩
  rw [List.eq_nil_of_length_eq_zero h] at hmem
  exact absurd hmem (List.not_mem_nil _)

theorem repack_none_noop [DecidableEq α] (s : BlockArray α) (hWF : WF s)
    (hbits : s.bits = (repBits s ((pySet (scanVals s)).map s.block_map.encode_block)
      ((pySet (scanVals s)).map s.block_map.encode_block).length).1) :
    repack s none = .ok s := by
  rw [repack_run]
  exact run_rep_noop 8191 s none _ _ rfl (scan_pal_ne_nil s hWF) hbits

theorem is_empty_none (s : BlockArray α) (hp : s.palette = none) :
    s.is_empty = s.data.all (fun w => decide (w = 0)) := by
  unfold BlockArray.is_empty
  rw [hp]

theorem is_empty_some (s : BlockArray α) (p : List Nat) (hp : s.palette = some p) :
    s.is_empty = decide (p = [0]) := by
  unfold BlockArray.is_empty
  rw [hp]

theorem cellId_zero_of_direct_empty (s : BlockArray α) (hp : s.palette = none)
    (hie : s.is_empty = true) (n : Nat) : cellId s n = 0 := by
  rw [is_empty_none s hp] at hie
  have hall : ∀ w ∈ s.data, w = 0 := fun w hw =>
    of_decide_eq_true (List.all_eq_true.mp hie w hw)
  rw [cellId_eq_raw s n hp]
  show (wordsVal s.data >>> (s.bits * n)) % 2 ^ s.bits = 0
  rw [wordsVal_zero_of_all s.data hall, Nat.zero_shiftRight, Nat.zero_mod]

theorem pyGetI_oob (l : List Nat) (i : Int) (h : (l.length : Int) ≤ i) :
    pyGetI l i = none := by
  simp only [pyGetI]
  rw [if_neg (show ¬ i < 0 by omega), if_neg (by omega)]

theorem pyGetI_head (b : Nat) (rest : List Nat) : pyGetI (b :: rest) 0 = some b := by
  have hc : (0 : Int) ≤ 0 ∧ (0 : Int) < ((b :: rest).length : Int) := by
    refine ⟨by omega, ?_⟩
    have h1 : (b :: rest).length = rest.length + 1 := List.length_cons b rest
    omega
  simp only [pyGetI]
  rw [if_neg (show ¬ (0 : Int) < 0 by omega), if_pos hc, Int.toNat_zero,
    List.getElem?_cons_zero]

theorem pySetI_head (b : Nat) (rest : List Nat) (w : Nat) :
    pySetI (b :: rest) 0 w = some (w :: rest) := by
  have hc : (0 : Int) ≤ 0 ∧ (0 : Int) < ((b :: rest).length : Int) := by
    refine ⟨by omega, ?_⟩
    have h1 : (b :: rest).length = rest.length + 1 := List.length_cons b rest
    omega
  simp only [pySetI]
  rw [if_neg (show ¬ (0 : Int) < 0 by omega), if_pos hc, Int.toNat_zero,
    List.set_cons_zero]

theorem lightGet_eq (s : LightArray) (n : Int) (b : Nat)
    (hget : pyGetI s.data (Int.fdiv n 2) = some b) :
    lightGet s n =
      (if Int.fmod n 2 = 0 then some (b &&& 0x0F) else some (b >>> 4)) := by
  simp only [lightGet]
  rw [hget]

theorem lightSet_eq (s : LightArray) (n : Int) (val b : Nat)
    (hget : pyGetI s.data (Int.fdiv n 2) = some b) :
    lightSet s n val =
      (pySetI s.data (Int.fdiv n 2)
        (if Int.fmod n 2 = 0 then (b &&& 0xF0) ||| val
         else (b &&& 0x0F) ||| (val <<< 4))).map (fun d => ⟨d⟩) := by
  simp only [lightSet]
  rw [hget]

theorem lightSet_head (b : Nat) (rest : List Nat) (val : Nat) :
    lightSet ⟨b :: rest⟩ 0 val = some ⟨((b &&& 0xF0) ||| val) :: rest⟩ := by
  rw [lightSet_eq ⟨b :: rest⟩ 0 val b
      (by rw [show Int.fdiv 0 2 = 0 by decide]; exact pyGetI_head b rest),
    if_pos (show Int.fmod 0 2 = 0 by decide),
    show Int.fdiv 0 2 = 0 by decide, pySetI_head]
  rfl

theorem lightGet_head_odd (b : Nat) (rest : List Nat) :
    lightGet ⟨b :: rest⟩ 1 = some (b >>> 4) := by
  rw [lightGet_eq ⟨b :: rest⟩ 1 b
      (by rw [show Int.fdiv 1 2 = 0 by decide]; exact pyGetI_head b rest),
    if_neg (show ¬ Int.fmod 1 2 = 0 by decide)]

theorem lightGet_oob (t : LightArray) (ht : t.data.length = 2048) :
    lightGet t 4096 = none := by
  simp only [lightGet]
  rw [show Int.fdiv 4096 2 = 2048 by decide, pyGetI_oob t.data 2048 (by omega)]

theorem lightSet_oob (t : LightArray) (ht : t.data.length = 2048) (val : Nat) :
    lightSet t 4096 val = none := by
  simp only [lightSet]
  rw [show Int.fdiv 4096 2 = 2048 by decide, pyGetI_oob t.data 2048 (by omega)]

theorem setitem_oob [DecidableEq α] (s : BlockArray α) (n : Nat) (v : α)
    (hWF : WF s) (hG : GoodMap s.block_map) (hn : 4096 ≤ n) :
    ∃ e, setitem s n v = .error e := by
  rw [setitem_run]
  rcases hps : s.palette with _ | p
  · rw [run_set_nopal 8191 s n v hps, setRaw_oob s n _ hWF.hlen hn]
    exact ⟨s, rfl⟩
  · rcases hpi : pyIndex p (s.block_map.encode_block v) with _ | i
    · obtain ⟨s1, hok, hWF1, _, _, _⟩ := run_rep_spec 8190 s (some 1) hWF hG (by omega)
      rcases hs1p : s1.palette with _ | p1
      · rw [run_set_fresh_dir 8191 s n v p s1 hps hpi hok hs1p,
          setRaw_oob s1 n _ hWF1.hlen hn]
        exact ⟨s1, rfl⟩
      · rw [run_set_fresh_pal 8191 s n v p s1 p1 hps hpi hok hs1p]
        have hlen' : ({ s1 with palette := some (p1 ++ [s.block_map.encode_block v]) }
              : BlockArray α).data.length =
            64 * ({ s1 with palette := some (p1 ++ [s.block_map.encode_block v]) }
              : BlockArray α).bits := hWF1.hlen
        rw [setRaw_oob _ n _ hlen' hn]
        exact ⟨_, rfl⟩
    · rw [run_set_found 8191 s n v p i hps hpi, setRaw_oob s n _ hWF.hlen hn]
      exact ⟨s, rfl⟩

theorem setitem_fresh [DecidableEq α] (s : BlockArray α) (n : Nat) (v : α)
    (p : List Nat) (hWF : WF s) (hG : GoodMap s.block_map) (hn : n < 4096)
    (hp : s.palette = some p) (hnotin : s.block_map.encode_block v ∉ p)
    (h8 : ceilLog2 (p.length + 1) ≤ 8) :
    ∃ s', setitem s n v = .ok s' ∧ WF s' ∧ s'.block_map = s.block_map ∧
      s'.palette = some (p ++ [s.block_map.encode_block v]) ∧
      s'.bits = max 4 (ceilLog2 (p.length + 1)) := by
  obtain ⟨s', hok, hWF', hbm', _, _, hmatch⟩ := setitem_spec s n v hWF hG hn
  simp only [hp] at hmatch
  obtain ⟨hpal, hbits⟩ := (hmatch.2 hnotin).1 h8
  refine ⟨s', hok, hWF', hbm', hpal, ?_⟩
  rw [hbits]
  by_cases h4 : ceilLog2 (p.length + 1) < 4
  · rw [if_pos h4]
    omega
  · rw [if_neg h4]
    omega

theorem writeSeq_fresh_go [DecidableEq α] (bm : BlockMap α) (hG : GoodMap bm)
    (ids : List α) : ∀ (idxs : List Nat) (s : BlockArray α) (p : List Nat),
    WF s → s.block_map = bm → s.palette = some p →
    s.bits = max 4 (ceilLog2 p.length) →
    p.length + ids.length ≤ 256 →
    (∀ v ∈ ids, bm.encode_block v ∉ p) →
    (ids.map bm.encode_block).Nodup →
    ids.length = idxs.length →
    (∀ i ∈ idxs, i < 4096) →
    ∃ s', writeSeq s (idxs.zip ids) = .ok s' ∧ WF s' ∧ s'.block_map = bm ∧
      s'.palette = some (p ++ ids.map bm.encode_block) ∧
      s'.bits = max 4 (ceilLog2 (p.length + ids.length)) := by
  induction ids with
  | nil =>
    intro idxs s p hWF hbm hp hbits _ _ _ hlen _
    have hidxs : idxs = [] := List.eq_nil_of_length_eq_zero (by simpa using hlen.symm)
    subst hidxs
    refine ⟨s, rfl, hWF, hbm, ?_, ?_⟩
    · simpa using hp
    · simpa using hbits
  | cons v ids ih =>
    intro idxs s p hWF hbm hp hbits hle hfresh hnd hlen hidx
    rcases idxs with _ | ⟨i, idxs⟩
    · exact absurd hlen (by simp)
    have hG0 : GoodMap s.block_map := by rw [hbm]; exact hG
    have h8 : ceilLog2 (p.length + 1) ≤ 8 := by
      rw [ceilLog2_le_iff]
      have h256 : (2:Nat) ^ 8 = 256 := by norm_num
      have hcle : (v :: ids).length = ids.length + 1 := List.length_cons v ids
      omega
    have hfr : s.block_map.encode_block v ∉ p := by
      rw [hbm]
      exact hfresh v (List.mem_cons_self v ids)
    obtain ⟨s1, hok1, hWF1, hbm1, hpal1, hbits1⟩ :=
      setitem_fresh s i v p hWF hG0 (hidx i (List.mem_cons_self i idxs)) hp hfr h8
    rw [hbm] at hpal1
    rw [List.map_cons] at hnd
    obtain ⟨hnotin_head, hnd'⟩ := List.nodup_cons.mp hnd
    have hfresh' : ∀ v' ∈ ids, bm.encode_block v' ∉ p ++ [bm.encode_block v] := by
      intro v' hv' hmem
      rcases List.mem_append.mp hmem with h1 | h1
      · exact hfresh v' (List.mem_cons_of_mem v hv') h1
      · have he : bm.encode_block v' = bm.encode_block v := List.mem_singleton.mp h1
        exact hnotin_head (he ▸ List.mem_map_of_mem bm.encode_block hv')
    have hbits1' : s1.bits = max 4 (ceilLog2 (p ++ [bm.encode_block v]).length) := by
      rw [hbits1, List.length_append, List.length_singleton]
    have hle' : (p ++ [bm.encode_block v]).length + ids.length ≤ 256 := by
      rw [List.length_append, List.length_singleton]
      have hcle : (v :: ids).length = ids.length + 1 := List.length_cons v ids
      omega
    have hlen' : ids.length = idxs.length := by
      have h1 : (v :: ids).length = ids.length + 1 := List.length_cons v ids
      have h2 : (i :: idxs).length = idxs.length + 1 := List.length_cons i idxs
      omega
    obtain ⟨s2, hok2, hWF2, hbm2, hpal2, hbits2⟩ := ih idxs s1 (p ++ [bm.encode_block v])
      hWF1 (hbm1.trans hbm) hpal1 hbits1' hle' hfresh' hnd' hlen'
      (fun j hj => hidx j (List.mem_cons_of_mem i hj))
    refine ⟨s2, ?_, hWF2, hbm2, ?_, ?_⟩
    · rw [List.zip_cons_cons]
      show (match setitem s i v with
            | Except.error e => Except.error e
            | Except.ok st => writeSeq st (idxs.zip ids)) = Except.ok s2
      rw [hok1]
      exact hok2
    · rw [hpal2, List.append_assoc, List.singleton_append, List.map_cons]
    · rw [hbits2, List.length_append, List.length_singleton, List.length_cons]
      rw [show p.length + 1 + ids.length = p.length + (ids.length + 1) from by omega]

theorem reachable_writeSeq [DecidableEq α] (bm : BlockMap α) (s : BlockArray α)
    (pairs : List (Nat × α)) (s' : BlockArray α) (hs : Reachable bm s)
    (hidx : ∀ q ∈ pairs, q.1 < 4096) (hok : writeSeq s pairs = .ok s') :
    Reachable bm s' := by
  induction pairs generalizing s with
  | nil =>
    have h1 : s = s' := Except.ok.inj hok
    rwa [h1] at hs
  | cons q rest ih =>
    obtain ⟨n, v⟩ := q
    rcases hset : setitem s n v with e | s1
    · rw [show writeSeq s ((n, v) :: rest) = (match setitem s n v with
          | .error e => .error e | .ok st => writeSeq st rest) from rfl, hset] at hok
      exact Except.noConfusion hok
    · rw [show writeSeq s ((n, v) :: rest) = (match setitem s n v with
          | .error e => .error e | .ok st => writeSeq st rest) from rfl, hset] at hok
      exact ih s1 (Reachable.write hs (hidx (n, v) (List.mem_cons_self _ _)) hset)
        (fun q hq => hidx q (List.mem_cons_of_mem _ hq)) hok

/-- Transport a decidable property of the encoded ids to a bounded
quantifier over the descriptors (whose type may be a large `Fintype`, where
the bounded quantifier itself is expensive to decide). -/
theorem forall_mem_of_map {β : Type} (g : β → Nat) (l : List β) (q : Nat → Prop)
    (h : ∀ x ∈ l.map g, q x) : ∀ v ∈ l, q (g v) :=
  fun v hv => h (g v) (List.mem_map_of_mem g hv)

theorem pySetGo_same [DecidableEq α] (l : List α) : ∀ (acc : List α),
    (∀ x ∈ l, x ∈ acc) → pySetGo acc l = acc := by
  induction l with
  | nil =>
    intro acc _
    rfl
  | cons a l ih =>
    intro acc h
    show (if a ∈ acc then pySetGo acc l else pySetGo (acc ++ [a]) l) = acc
    rw [if_pos (h a (List.mem_cons_self a l))]
    exact ih acc (fun x hx => h x (List.mem_cons_of_mem a hx))

theorem pySetGo_cons_notmem [DecidableEq α] (acc : List α) (x : α) (l : List α)
    (h : x ∉ acc) : pySetGo acc (x :: l) = pySetGo (acc ++ [x]) l := by
  show (if x ∈ acc then pySetGo acc l else pySetGo (acc ++ [x]) l) = pySetGo (acc ++ [x]) l
  rw [if_neg h]

theorem pySet_head_tail [DecidableEq α] (g : Nat → α) (N : Nat) (a b : α)
    (hN : 2 ≤ N) (h0 : g 0 = a) (hr : ∀ m, 1 ≤ m → m < N → g m = b) (hab : b ≠ a) :
    pySet ((List.range N).map g) = [a, b] := by
  obtain ⟨M, rfl⟩ : ∃ M, N = M + 2 := ⟨N - 2, by omega⟩
  have hsplit : List.range (M + 2) = [0, 1] ++ (List.range M).map (fun i => 2 + i) := by
    rw [Nat.add_comm M 2, List.range_add]
    rfl
  simp only [pySet]
  rw [hsplit, List.map_append,
    show ([0, 1] : List Nat).map g = [g 0, g 1] from rfl,
    h0, hr 1 (by omega) (by omega),
    show ([a, b] : List α) ++ ((List.range M).map (fun i => 2 + i)).map g
      = a :: b :: ((List.range M).map (fun i => 2 + i)).map g from rfl,
    pySetGo_cons_notmem [] a _ (List.not_mem_nil a), List.nil_append,
    pySetGo_cons_notmem [a] b _ (fun hmem => hab (List.mem_singleton.mp hmem)),
    List.singleton_append]
  apply pySetGo_same
  intro x hx
  rcases List.mem_map.mp hx with ⟨y, hy, hgy⟩
  rcases List.mem_map.mp hy with ⟨m, hm, hmy⟩
  have hmM : m < M := List.mem_range.mp hm
  have hxb : x = b := by
    rw [← hgy, ← hmy]
    exact hr (2 + m) (by omega) (by omega)
  rw [hxb]
  exact List.mem_cons_of_mem a (List.mem_singleton_self b)

theorem repBits_small (s : BlockArray α) (pal : List Nat) (len : Nat)
    (h8 : ceilLog2 len ≤ 8) :
    repBits s pal len = (if ceilLog2 len < 4 then 4 else ceilLog2 len, some pal) := by
  unfold repBits
  rw [if_pos h8]

/-! ## The claims -/

/-- C1: on every state reachable from the empty array, a write of any
descriptor at any index in `[0, 4096)` succeeds and an immediate read of the
same index returns a descriptor equal to the one written, whatever the prior
palette contents, mode, or bit width, including when the write triggers
`repack(reserve=1)` and a mode switch. -/
theorem C1_round_trip [DecidableEq α] (bm : BlockMap α) (s : BlockArray α) (n : Nat)
    (v : α) (hG : GoodMap bm) (hs : Reachable bm s) (hn : n < 4096) :
    ∃ s', setitem s n v = .ok s' ∧ getitem s' n = some v := by
  obtain ⟨hWF, hbm⟩ := reachable_WF bm hG s hs
  have hG0 : GoodMap s.block_map := by rw [hbm]; exact hG
  obtain ⟨s', hok, hWF', hbm', hcn, _, _⟩ := setitem_spec s n v hWF hG0 hn
  refine ⟨s', hok, ?_⟩
  rw [getitem_eq s' n hWF' hn, hcn, hbm', hG0.rt]

/-- C1 witness: a concrete write–read round trip at index 0 on the empty
array over the concrete registry. -/
theorem C1_round_trip_witness :
    GoodMap natMap ∧ Reachable natMap e0 ∧ (0 : Nat) < 4096 ∧
    ∃ s', setitem e0 0 (300 : Fin 65536) = .ok s' ∧ getitem s' 0 = some 300 :=
  ⟨goodNatMap, Reachable.empty, by decide,
    C1_round_trip natMap e0 0 300 goodNatMap Reachable.empty (by decide)⟩

/-- C2: on every reachable state, `repack` — with or without a reserve
argument — succeeds and every one of the 4096 cells reads back the same
descriptor after the call as before it. -/
theorem C2_repack_preserves [DecidableEq α] (bm : BlockMap α) (s : BlockArray α)
    (r : Option Nat) (hG : GoodMap bm) (hs : Reachable bm s) :
    ∃ s', repack s r = .ok s' ∧ ∀ n, n < 4096 → getitem s' n = getitem s n := by
  obtain ⟨hWF, hbm⟩ := reachable_WF bm hG s hs
  have hG0 : GoodMap s.block_map := by rw [hbm]; exact hG
  obtain ⟨s', hok, hWF', hbm', hc, _⟩ := repack_spec s r hWF hG0
  refine ⟨s', hok, fun n hn => ?_⟩
  rw [getitem_eq s' n hWF' hn, getitem_eq s n hWF hn, hc n hn, hbm']

/-- C2 witness: a concrete `repack()` on the empty array. -/
theorem C2_repack_preserves_witness :
    GoodMap natMap ∧ Reachable natMap e0 ∧
    ∃ s', repack e0 none = .ok s' ∧ ∀ n, n < 4096 → getitem s' n = getitem e0 n :=
  ⟨goodNatMap, Reachable.empty,
    C2_repack_preserves natMap e0 none goodNatMap Reachable.empty⟩

/-- C9: in every reachable state the word count of the storage is exactly
`64 * bitsPerCell`, which equals `ceil(4096 * bitsPerCell / 64)`; at
construction this is 256 words for 4 bits per cell. -/
theorem C9_storage_invariant [DecidableEq α] (bm : BlockMap α) (s : BlockArray α)
    (hG : GoodMap bm) (hs : Reachable bm s) :
    s.data.length = 64 * s.bits ∧
    s.data.length = (4096 * s.bits + 63) / 64 ∧
    (BlockArray.empty bm).data.length = 256 ∧ (BlockArray.empty bm).bits = 4 := by
  obtain ⟨hWF, _⟩ := reachable_WF bm hG s hs
  refine ⟨hWF.hlen, ?_, ?_, rfl⟩
  · rw [hWF.hlen]
    omega
  · rw [show (BlockArray.empty bm).data = List.replicate 256 0 from rfl,
      List.length_replicate]

/-- C9 witness: the invariant at the empty array over the concrete registry. -/
theorem C9_storage_invariant_witness :
    GoodMap natMap ∧ Reachable natMap e0 ∧
    (e0.data.length = 64 * e0.bits ∧ e0.data.length = (4096 * e0.bits + 63) / 64 ∧
      (BlockArray.empty natMap).data.length = 256 ∧ (BlockArray.empty natMap).bits = 4) :=
  ⟨goodNatMap, Reachable.empty,
    C9_storage_invariant natMap e0 goodNatMap Reachable.empty⟩

/-- C10: in every reachable state in indirect mode, every packed field value
is strictly below the palette length, so the palette lookup performed by a
read never fails. -/
theorem C10_palette_indices [DecidableEq α] (bm : BlockMap α) (s : BlockArray α)
    (p : List Nat) (n : Nat) (hG : GoodMap bm) (hs : Reachable bm s)
    (hp : s.palette = some p) (hn : n < 4096) :
    cellRaw s n < p.length ∧ ∃ d, getitem s n = some d := by
  obtain ⟨hWF, _⟩ := reachable_WF bm hG s hs
  exact ⟨(hWF.hpal p hp).2.2.2 n hn, _, getitem_eq s n hWF hn⟩

/-- C10 witness: the lookup bound at cell 0 of the empty array. -/
theorem C10_palette_indices_witness :
    GoodMap natMap ∧ Reachable natMap e0 ∧ e0.palette = some [0] ∧ (0 : Nat) < 4096 ∧
    (cellRaw e0 0 < [0].length ∧ ∃ d, getitem e0 0 = some d) :=
  ⟨goodNatMap, Reachable.empty, rfl, by decide,
    C10_palette_indices natMap e0 [0] 0 goodNatMap Reachable.empty rfl (by decide)⟩

/-- C7: on every reachable state, `repack()` with no reserve argument
succeeds, and calling it again immediately returns the state of the first
call entirely unchanged — the second call is a no-op, so `bitsPerCell`, the
palette, and all logical cell contents after the second call are exactly
those after the first. -/
theorem C7_repack_idempotent [DecidableEq α] (bm : BlockMap α) (s : BlockArray α)
    (hG : GoodMap bm) (hs : Reachable bm s) :
    ∃ s1, repack s none = .ok s1 ∧ repack s1 none = .ok s1 := by
  obtain ⟨hWF, hbm⟩ := reachable_WF bm hG s hs
  have hG0 : GoodMap s.block_map := by rw [hbm]; exact hG
  obtain ⟨s1, hok, hWF1, hbm1, hc, hmatch⟩ := repack_spec s none hWF hG0
  refine ⟨s1, hok, ?_⟩
  have hm2 : (s.bits = (repBits s ((pySet (scanVals s)).map s.block_map.encode_block)
        ((pySet (scanVals s)).map s.block_map.encode_block).length).1 → s1 = s) ∧
      (¬ s.bits = (repBits s ((pySet (scanVals s)).map s.block_map.encode_block)
          ((pySet (scanVals s)).map s.block_map.encode_block).length).1 →
        s1.bits = (repBits s ((pySet (scanVals s)).map s.block_map.encode_block)
            ((pySet (scanVals s)).map s.block_map.encode_block).length).1 ∧
        s1.palette = (repBits s ((pySet (scanVals s)).map s.block_map.encode_block)
            ((pySet (scanVals s)).map s.block_map.encode_block).length).2) := hmatch
  have hscan1 : scanVals s1 = scanVals s := by
    rw [scanVals_eq s1 hWF1, scanVals_eq s hWF]
    apply List.map_congr_left
    intro i hi
    rw [hc i (List.mem_range.mp hi), hbm1]
  apply repack_none_noop s1 hWF1
  rw [hscan1, hbm1, repBits_congr s1 s hbm1]
  by_cases hb : s.bits = (repBits s ((pySet (scanVals s)).map s.block_map.encode_block)
      ((pySet (scanVals s)).map s.block_map.encode_block).length).1
  · rw [hm2.1 hb]
    exact hb
  · exact (hm2.2 hb).1

/-- C7 witness: double `repack()` starting from the empty array over the
concrete registry. -/
theorem C7_repack_idempotent_witness :
    GoodMap natMap ∧ Reachable natMap e0 ∧
    ∃ s1, repack e0 none = .ok s1 ∧ repack s1 none = .ok s1 :=
  ⟨goodNatMap, Reachable.empty,
    C7_repack_idempotent natMap e0 goodNatMap Reachable.empty⟩

/-- C8: `is_empty` is true on a freshly constructed array, false immediately
after any successful write of a descriptor with nonzero global id, and never
a false positive: on every reachable state a true answer means all 4096 cells
decode to global id 0. -/
theorem C8_is_empty [DecidableEq α] (bm : BlockMap α) (hG : GoodMap bm) :
    (BlockArray.empty bm).is_empty = true ∧
    (∀ (s s' : BlockArray α) (n : Nat) (v : α), Reachable bm s → n < 4096 →
      bm.encode_block v ≠ 0 → setitem s n v = .ok s' → s'.is_empty = false) ∧
    (∀ s : BlockArray α, Reachable bm s → s.is_empty = true →
      ∀ n, n < 4096 → cellId s n = 0) := by
  refine ⟨rfl, ?_, ?_⟩
  · intro s s' n v hs hn hnz hset
    obtain ⟨hWF, hbm⟩ := reachable_WF bm hG s hs
    have hG0 : GoodMap s.block_map := by rw [hbm]; exact hG
    obtain ⟨s'', hok, hWF'', hbm'', hcn, hcm, hmatch⟩ := setitem_spec s n v hWF hG0 hn
    rw [hok] at hset
    have hss : s'' = s' := Except.ok.inj hset
    subst hss
    have hnz' : s.block_map.encode_block v ≠ 0 := by rw [hbm]; exact hnz
    rcases hps : s.palette with _ | p
    · simp only [hps] at hmatch
      cases hie : s''.is_empty
      · rfl
      · have h0 := cellId_zero_of_direct_empty s'' hmatch.1 hie n
        rw [hcn] at h0
        exact absurd h0 hnz'
    · simp only [hps] at hmatch
      by_cases hin : s.block_map.encode_block v ∈ p
      · rw [is_empty_some s'' p (hmatch.1 hin).1]
        apply decide_eq_false
        intro hp0
        subst hp0
        exact hnz' (List.mem_singleton.mp hin)
      · by_cases h8 : ceilLog2 (p.length + 1) ≤ 8
        · rw [is_empty_some s'' _ ((hmatch.2 hin).1 h8).1]
          apply decide_eq_false
          intro heq
          have hg : s.block_map.encode_block v ∈ p ++ [s.block_map.encode_block v] :=
            List.mem_append_right _ (List.mem_singleton_self _)
          rw [heq] at hg
          exact hnz' (List.mem_singleton.mp hg)
        · have hdir := (hmatch.2 hin).2 (by omega)
          cases hie : s''.is_empty
          · rfl
          · have h0 := cellId_zero_of_direct_empty s'' hdir.1 hie n
            rw [hcn] at h0
            exact absurd h0 hnz'
  · intro s hs hie n hn
    obtain ⟨hWF, _⟩ := reachable_WF bm hG s hs
    rcases hps : s.palette with _ | p
    · exact cellId_zero_of_direct_empty s hps hie n
    · rw [is_empty_some s p hps] at hie
      have hp0 : p = [0] := of_decide_eq_true hie
      subst hp0
      rw [cellId_eq_getD s n [0] hps]
      have hlt : cellRaw s n < 1 := by
        have := (hWF.hpal [0] hps).2.2.2 n hn
        simpa using this
      have h0 : cellRaw s n = 0 := by omega
      rw [h0]
      rfl

/-- C8 witness: the `is_empty` facts instantiated at the concrete registry. -/
theorem C8_is_empty_witness :
    GoodMap natMap ∧ (BlockArray.empty natMap).is_empty = true :=
  ⟨goodNatMap, (C8_is_empty natMap goodNatMap).1⟩

/-- C4 counterexample: the claim says a failed write leaves the array
completely unchanged, in particular never having appended to the palette.
But the failed write of the fresh id 5 at out-of-range index 4096 into the
empty array surfaces its IndexError only after the palette has already been
mutated: the error-time state has palette `[0, 5]`, not the untouched
`[0]`. -/
theorem C4_counterexample :
    (errSt (setitem e0 4096 (natMap.decode_block 5))).map
        (fun s => (s.palette, s.bits, s.data)) =
      some (some [0, 5], 4, List.replicate 256 0) := by
  have hpi : pyIndex [0] (natMap.encode_block (natMap.decode_block 5)) = none := by
    decide
  have hrep : run 8191 (.rep e0 (some 1)) = .ok e0 :=
    run_rep_noop 8190 e0 (some 1) [0] 2 rfl (by decide) (by decide)
  have h1 := run_set_fresh_pal 8191 e0 4096 (natMap.decode_block 5) [0] e0 [0]
    rfl hpi hrep rfl
  rw [setitem_run, h1]
  decide

/-- C4 (amended): a failed out-of-range write leaves the array exactly
unchanged whenever the descriptor's id resolves without palette growth — in
direct mode, or when the id is already present in the palette; when the id is
fresh, the palette may already have been extended when the IndexError
surfaces. -/
theorem C4_failed_write [DecidableEq α] (bm : BlockMap α) (s : BlockArray α)
    (n : Nat) (v : α) (hG : GoodMap bm) (hs : Reachable bm s) (hn : 4096 ≤ n)
    (hres : s.palette = none ∨ ∃ p, s.palette = some p ∧ bm.encode_block v ∈ p) :
    setitem s n v = .error s := by
  obtain ⟨hWF, hbm⟩ := reachable_WF bm hG s hs
  rw [setitem_run]
  rcases hres with hp | ⟨p, hp, hin⟩
  · rw [run_set_nopal 8191 s n v hp]
    exact setRaw_oob s n _ hWF.hlen hn
  · have hin' : s.block_map.encode_block v ∈ p := by rw [hbm]; exact hin
    obtain ⟨i, hpi, _, _⟩ := pyIndex_mem p (s.block_map.encode_block v) hin'
    rw [run_set_found 8191 s n v p i hp hpi]
    exact setRaw_oob s n _ hWF.hlen hn

/-- C4 witness: a failed write of the already-present id 0 at index 4096 on
the empty array leaves it exactly unchanged. -/
theorem C4_failed_write_witness :
    GoodMap natMap ∧ Reachable natMap e0 ∧ (4096 : Nat) ≤ 4096 ∧
    (e0.palette = none ∨ ∃ p, e0.palette = some p ∧
      natMap.encode_block (natMap.decode_block 0) ∈ p) ∧
    setitem e0 4096 (natMap.decode_block 0) = .error e0 :=
  ⟨goodNatMap, Reachable.empty, le_refl 4096,
    Or.inr ⟨[0], rfl, by decide⟩,
    C4_failed_write natMap e0 4096 (natMap.decode_block 0) goodNatMap Reachable.empty
      (le_refl 4096) (Or.inr ⟨[0], rfl, by decide⟩)⟩

/-- C5 counterexample: the claim says index −1 is rejected and
`NibbleArray.write` of value 16 fails with InvalidValue.  In fact the read at
−1 succeeds (Python negative indexing wraps to the end of the buffer), and the
nibble write of 16 is accepted — and corrupts the adjacent odd nibble, which
then reads back as 1. -/
theorem C5_counterexample :
    getitemI e0 (-1) = some (natMap.decode_block 0) ∧
    ∃ t, lightSet LightArray.empty 0 16 = some t ∧ lightGet t 1 = some 1 := by
  refine ⟨by decide, ⟨((0 &&& 0xF0) ||| 16) :: List.replicate 2047 0⟩, ?_, ?_⟩
  · show lightSet ⟨0 :: List.replicate 2047 0⟩ 0 16 = _
    exact lightSet_head 0 (List.replicate 2047 0) 16
  · exact (lightGet_head_odd ((0 &&& 0xF0) ||| 16) (List.replicate 2047 0)).trans
      (by decide)

/-- C5 (amended): index 4096 is rejected on every reachable block array (the
read raises and the write raises, possibly after palette growth) and on the
full-size nibble array; but index −1 is NOT rejected — it wraps to the end of
the buffer — and the nibble write performs no value check: writing 16 at cell
0 succeeds and corrupts the adjacent nibble. -/
theorem C5_bounds [DecidableEq α] (bm : BlockMap α) (s : BlockArray α) (v : α)
    (t : LightArray) (hG : GoodMap bm) (hs : Reachable bm s)
    (ht : t.data.length = 2048) :
    getitem s 4096 = none ∧ (∃ e, setitem s 4096 v = .error e) ∧
    lightGet t 4096 = none ∧ lightSet t 4096 0 = none ∧
    getitemI e0 (-1) = some (natMap.decode_block 0) ∧
    ∃ t', lightSet LightArray.empty 0 16 = some t' ∧ lightGet t' 1 = some 1 := by
  obtain ⟨hWF, hbm⟩ := reachable_WF bm hG s hs
  have hG0 : GoodMap s.block_map := by rw [hbm]; exact hG
  refine ⟨getitem_oob s 4096 hWF.hlen (le_refl 4096),
    setitem_oob s 4096 v hWF hG0 (le_refl 4096),
    lightGet_oob t ht, lightSet_oob t ht 0, by decide,
    ⟨((0 &&& 0xF0) ||| 16) :: List.replicate 2047 0⟩, ?_, ?_⟩
  · show lightSet ⟨0 :: List.replicate 2047 0⟩ 0 16 = _
    exact lightSet_head 0 (List.replicate 2047 0) 16
  · exact (lightGet_head_odd ((0 &&& 0xF0) ||| 16) (List.replicate 2047 0)).trans
      (by decide)

/-- C5 witness: the boundary behaviour at the empty block array and the empty
nibble array. -/
theorem C5_bounds_witness :
    GoodMap natMap ∧ Reachable natMap e0 ∧ LightArray.empty.data.length = 2048 ∧
    getitem e0 4096 = none :=
  ⟨goodNatMap, Reachable.empty,
    by rw [show LightArray.empty.data = List.replicate 2048 0 from rfl,
      List.length_replicate],
    (C5_bounds natMap e0 (natMap.decode_block 0) LightArray.empty goodNatMap
      Reachable.empty
      (by rw [show LightArray.empty.data = List.replicate 2048 0 from rfl,
        List.length_replicate])).1⟩

/-- C3 counterexample: the claim places the 4→5 width change at the 17th
distinct nonzero insertion.  In fact after only 16 distinct nonzero
insertions (ids 1‥16 at indices 0‥15) the width is already 5, while after 15
it is still 4: the change happens at the 16th insertion, because
`repack(reserve=1)` uses candidate size `len(palette) + 1 = 17` there and
`ceil(log2(17)) = 5`. -/
theorem C3_counterexample :
    (∃ s, writeSeq e0 ((List.range 15).zip
        ((List.range 15).map (fun j => natMap.decode_block (j + 1)))) = .ok s ∧
      s.bits = 4) ∧
    ∃ s, writeSeq e0 ((List.range 16).zip
        ((List.range 16).map (fun j => natMap.decode_block (j + 1)))) = .ok s ∧
      s.bits = 5 := by
  constructor
  · obtain ⟨s, hok, _, _, _, hbits⟩ := writeSeq_fresh_go natMap goodNatMap
      ((List.range 15).map (fun j => natMap.decode_block (j + 1))) (List.range 15)
      e0 [0] (WF_empty natMap goodNatMap) rfl rfl (by decide) (by decide)
      (forall_mem_of_map natMap.encode_block _ (fun x => x ∉ ([0] : List Nat))
        (by decide))
      (by decide) (by decide) (by decide)
    exact ⟨s, hok, by rw [hbits]; decide⟩
  · obtain ⟨s, hok, _, _, _, hbits⟩ := writeSeq_fresh_go natMap goodNatMap
      ((List.range 16).map (fun j => natMap.decode_block (j + 1))) (List.range 16)
      e0 [0] (WF_empty natMap goodNatMap) rfl rfl (by decide) (by decide)
      (forall_mem_of_map natMap.encode_block _ (fun x => x ∉ ([0] : List Nat))
        (by decide))
      (by decide) (by decide) (by decide)
    exact ⟨s, hok, by rw [hbits]; decide⟩

/-- C3 (amended): writing 17 distinct nonzero ids at in-range indices from
the empty array grows the palette from 1 to 18 entries and changes
`bitsPerCell` from 4 to 5 exactly once — at the 16th distinct insertion, not
the 17th: after the k-th insertion the palette holds `k + 1` entries and the
width is 4 for `k ≤ 15` and 5 for `16 ≤ k ≤ 17` (with `reserve = 1` the
candidate size at the 16th insertion is 17 and `ceil(log2(17)) = 5`). -/
theorem C3_palette_growth [DecidableEq α] (bm : BlockMap α) (hG : GoodMap bm)
    (ids : List α) (idxs : List Nat) (hlen : ids.length = 17)
    (hlenI : idxs.length = 17) (hnd : (ids.map bm.encode_block).Nodup)
    (hnz : ∀ v ∈ ids, bm.encode_block v ≠ 0) (hidx : ∀ i ∈ idxs, i < 4096)
    (k : Nat) (hk : k ≤ 17) :
    ∃ s' p', writeSeq (BlockArray.empty bm) ((idxs.take k).zip (ids.take k)) = .ok s' ∧
      s'.palette = some p' ∧ p'.length = k + 1 ∧
      s'.bits = if k ≤ 15 then 4 else 5 := by
  obtain ⟨s', hok, _, _, hpal, hbits⟩ := writeSeq_fresh_go bm hG
    (ids.take k) (idxs.take k) (BlockArray.empty bm) [0]
    (WF_empty bm hG) rfl rfl
    (by show (4 : Nat) = max 4 (ceilLog2 ([0] : List Nat).length); decide)
    (by rw [List.length_singleton, List.length_take]; omega)
    (by intro v hv hmem
        exact hnz v (List.mem_of_mem_take hv) (List.mem_singleton.mp hmem))
    (by rw [List.map_take]; exact List.Nodup.sublist (List.take_sublist k _) hnd)
    (by rw [List.length_take, List.length_take]; omega)
    (fun i hi => hidx i (List.mem_of_mem_take hi))
  refine ⟨s', [0] ++ (ids.take k).map bm.encode_block, hok, hpal, ?_, ?_⟩
  · rw [List.length_append, List.length_singleton, List.length_map, List.length_take]
    omega
  · have hlent : ([0] : List Nat).length + (ids.take k).length = k + 1 := by
      rw [List.length_singleton, List.length_take]
      omega
    rw [hbits, hlent]
    by_cases hk15 : k ≤ 15
    · rw [if_pos hk15]
      have hc : ceilLog2 (k + 1) ≤ 4 := by
        rw [ceilLog2_le_iff]
        have h16 : (2:Nat) ^ 4 = 16 := by norm_num
        omega
      omega
    · rw [if_neg hk15]
      have hc5 : ceilLog2 (k + 1) ≤ 5 := by
        rw [ceilLog2_le_iff]
        have h32 : (2:Nat) ^ 5 = 32 := by norm_num
        omega
      have hc4 : ¬ ceilLog2 (k + 1) ≤ 4 := by
        rw [ceilLog2_le_iff]
        have h16 : (2:Nat) ^ 4 = 16 := by norm_num
        omega
      omega

/-- C3 witness: the growth sequence at the concrete registry (ids 1‥17 at
indices 0‥16), observed after the 16th insertion. -/
theorem C3_palette_growth_witness :
    GoodMap natMap ∧
    ∃ s' p', writeSeq (BlockArray.empty natMap)
        (((List.range 17).take 16).zip
          (((List.range 17).map (fun j => natMap.decode_block (j + 1))).take 16)) =
        .ok s' ∧
      s'.palette = some p' ∧ p'.length = 16 + 1 ∧
      s'.bits = if 16 ≤ 15 then 4 else 5 :=
  ⟨goodNatMap,
    C3_palette_growth natMap goodNatMap
      ((List.range 17).map (fun j => natMap.decode_block (j + 1))) (List.range 17)
      (by decide) (by decide) (by decide)
      (forall_mem_of_map natMap.encode_block _ (fun x => x ≠ 0) (by decide))
      (by decide) 16 (by decide)⟩

/-- C6 counterexample: writing the single global id 300 (≥ 256) into a fresh
array whose registry has `max_bits = 16` does NOT make the next repack switch
to direct mode.  The palette becomes `[0, 300]` and the width stays 4; the
subsequent `repack()` recomputes 2 distinct values, `ceil(log2(2)) = 1` is
clamped up to 4, and the call is a no-op — the array stays indirect.  Direct
mode depends on the number of distinct ids, never on their magnitude. -/
theorem C6_counterexample :
    ∃ s', setitem e0 0 (natMap.decode_block 300) = .ok s' ∧
      s'.palette = some [0, 300] ∧ s'.bits = 4 ∧ repack s' none = .ok s' := by
  obtain ⟨s', hok, hWF', hbm', hcn, hcm, hmatch⟩ :=
    setitem_spec e0 0 (natMap.decode_block 300) (WF_empty natMap goodNatMap)
      goodNatMap (by decide)
  have hps : e0.palette = some [0] := rfl
  simp only [hps] at hmatch
  have hnotin : e0.block_map.encode_block (natMap.decode_block 300) ∉
      ([0] : List Nat) := by decide
  obtain ⟨hpal, hbits⟩ := (hmatch.2 hnotin).1 (by decide)
  have hpal' : s'.palette = some [0, 300] := by
    rw [hpal]
    decide
  have hbits' : s'.bits = 4 := by
    rw [hbits]
    decide
  refine ⟨s', hok, hpal', hbits', ?_⟩
  have hscan : scanVals s' = (List.range 4096).map
      (fun n => s'.block_map.decode_block (cellId s' n)) := scanVals_eq s' hWF'
  have hps2 : pySet (scanVals s') =
      [natMap.decode_block 300, natMap.decode_block 0] := by
    rw [hscan]
    apply pySet_head_tail
    · decide
    · show s'.block_map.decode_block (cellId s' 0) = natMap.decode_block 300
      rw [hcn, hbm']
      decide
    · intro m h1 h4096
      show s'.block_map.decode_block (cellId s' m) = natMap.decode_block 0
      have hce : cellId e0 m = 0 := cellId_empty natMap m
      rw [hcm m h4096 (by omega), hce, hbm']
      decide
    · decide
  apply repack_none_noop s' hWF'
  rw [hps2, hbm',
    show ([natMap.decode_block 300, natMap.decode_block 0].map
      e0.block_map.encode_block) = [300, 0] from by decide,
    repBits_small s' [300, 0] (([300, 0] : List Nat).length) (by decide), hbits']
  decide

/-- C6 (amended): direct mode is driven by the number of distinct ids, not
their magnitude: a write of a fresh id into an indirect array whose palette
already holds 256 entries makes `repack(reserve=1)` compute a candidate width
`ceil(log2(257)) = 9 > 8`, switching to direct mode — the palette becomes
absent and `bitsPerCell` becomes the registry's `max_bits` (16 for a registry
with `maxDirectBits = 16`). -/
theorem C6_direct_switch [DecidableEq α] (bm : BlockMap α) (s : BlockArray α)
    (n : Nat) (v : α) (p : List Nat) (hG : GoodMap bm) (hs : Reachable bm s)
    (hn : n < 4096) (hp : s.palette = some p) (hplen : p.length = 256)
    (hnotin : bm.encode_block v ∉ p) :
    ∃ s', setitem s n v = .ok s' ∧ s'.palette = none ∧ s'.bits = bm.max_bits := by
  obtain ⟨hWF, hbm⟩ := reachable_WF bm hG s hs
  have hG0 : GoodMap s.block_map := by rw [hbm]; exact hG
  obtain ⟨s', hok, hWF', hbm', _, _, hmatch⟩ := setitem_spec s n v hWF hG0 hn
  simp only [hp] at hmatch
  have hnotin' : s.block_map.encode_block v ∉ p := by rw [hbm]; exact hnotin
  have h9 : 8 < ceilLog2 (p.length + 1) := by
    rw [hplen]
    decide
  obtain ⟨hpal, hbits⟩ := (hmatch.2 hnotin').2 h9
  exact ⟨s', hok, hpal, by rw [hbits, hbm]⟩

/-- C6 witness: a concrete state with a full 256-entry palette (the 255
distinct nonzero ids 1‥255 written from the empty array) where the write of
the fresh id 300 switches to direct mode with width 16. -/
theorem C6_direct_switch_witness :
    ∃ (s : BlockArray (Fin 65536)) (p : List Nat),
      GoodMap natMap ∧ Reachable natMap s ∧ (0 : Nat) < 4096 ∧
      s.palette = some p ∧ p.length = 256 ∧
      natMap.encode_block (natMap.decode_block 300) ∉ p ∧
      ∃ s', setitem s 0 (natMap.decode_block 300) = .ok s' ∧
        s'.palette = none ∧ s'.bits = natMap.max_bits := by
  obtain ⟨s, hok, hWF, hbm, hpal, hbits⟩ := writeSeq_fresh_go natMap goodNatMap
    ((List.range 255).map (fun j => natMap.decode_block (j + 1))) (List.range 255)
    e0 [0] (WF_empty natMap goodNatMap) rfl rfl (by decide) (by decide)
    (forall_mem_of_map natMap.encode_block _ (fun x => x ∉ ([0] : List Nat))
      (by decide))
    (by decide) (by decide) (by decide)
  have hreach : Reachable natMap s :=
    reachable_writeSeq natMap e0 _ s Reachable.empty (by decide) hok
  refine ⟨s, [0] ++ ((List.range 255).map
      (fun j => natMap.decode_block (j + 1))).map natMap.encode_block,
    goodNatMap, hreach, by decide, hpal, by decide, by decide,
    C6_direct_switch natMap s 0 (natMap.decode_block 300) _ goodNatMap hreach
      (by decide) hpal (by decide) (by decide)⟩

end Quarry
